import Mathlib

/-!
Shallow embedding of the Qera schema-validation engine
(`QeraSchema` and its subclasses, `src/unnamed/part_009`).

JS values are modelled by `Value`; finite JS numbers by `JSNum`, a decimal
mantissa/exponent pair (IEEE-754 binary floats and the infinities are not
modelled; `NaN` is a separate `Value` constructor, which is all the validator
distinguishes).  A thrown JS exception is modelled by `Thrown`; `_parse` can
therefore end in one of three ways (`ParseOutcome`): a success, a failure with
issues, or a propagating exception raised by a user-supplied `refine`/
`transform` callback.
-/

namespace Qera

/-- A thrown JS value: either an `Error` instance carrying `.message`, or any
other (non-`Error`) thrown value. -/
inductive Thrown where
  | errObj (msg : String)
  | nonErr
deriving DecidableEq, Repr

/-- A finite JS number, as the decimal `m / 10 ^ e`. -/
structure JSNum where
  m : Int
  e : Nat
deriving DecidableEq, Repr

/-- `a < b` on decimals, by cross-multiplication. -/
def JSNum.lt (a b : JSNum) : Bool :=
  a.m * (10 : Int) ^ b.e < b.m * (10 : Int) ^ a.e

/-- `a ≤ b` on decimals. -/
def JSNum.le (a b : JSNum) : Bool :=
  a.m * (10 : Int) ^ b.e ≤ b.m * (10 : Int) ^ a.e

/-- `a === b` on decimals (JS strict equality of two numbers). -/
def JSNum.eq (a b : JSNum) : Bool :=
  a.m * (10 : Int) ^ b.e == b.m * (10 : Int) ^ a.e

/-- `Number.isInteger`. -/
def JSNum.isInt (a : JSNum) : Bool :=
  a.m % (10 : Int) ^ a.e == 0

/-- Strip trailing decimal zeros, e.g. `250/10^2` becomes `25/10^1`. -/
def stripZeros (m : Int) (e : Nat) : Int × Nat :=
  match e with
  | 0 => (m, 0)
  | Nat.succ e' => if m % 10 == 0 then stripZeros (m / 10) e' else (m, Nat.succ e')

/-- Left-pad a digit string with zeros to width `w`. -/
def padZeros (s : String) (w : Nat) : String :=
  String.mk (List.replicate (w - s.length) '0') ++ s

/-- JS `Number::toString` on the modelled decimals: integers print without a
decimal point, other values print their (trailing-zero-free) decimal
expansion. -/
def JSNum.toStr (j : JSNum) : String :=
  let p := stripZeros j.m j.e
  if p.2 == 0 then toString p.1
  else
    let a := p.1.natAbs
    let ip := a / 10 ^ p.2
    let fp := a % 10 ^ p.2
    (if p.1 < 0 then "-" else "") ++ toString ip ++ "." ++ padZeros (toString fp) p.2

/-- The natural number `n` as a JS number. -/
def JSNum.ofNat (n : Nat) : JSNum := ⟨(n : Int), 0⟩

/-- An in-memory JS value, as received by `_parse`. -/
inductive Value where
  | undef
  | null
  | bool (b : Bool)
  | nan
  | num (j : JSNum)
  | str (s : String)
  | arr (elems : List Value)
  | obj (fields : List (String × Value))

/-- JS `typeof`. -/
def typeofV : Value → String
  | .undef => "undefined"
  | .null => "object"
  | .bool _ => "boolean"
  | .nan => "number"
  | .num _ => "number"
  | .str _ => "string"
  | .arr _ => "object"
  | .obj _ => "object"

/-- One segment of an `Issue` path.  The spec's Issue model allows both string
and integer segments; the source (`ValidationError.path: string[]`) only ever
constructs string segments — claim C9 is about exactly that. -/
inductive PathSeg where
  | str (s : String)
  | int (n : Int)
deriving DecidableEq, Repr

/-- Does the segment carry a string? -/
def PathSeg.isStr : PathSeg → Bool
  | .str _ => true
  | .int _ => false

/-- One validation failure (interface `ValidationError` in the source). -/
structure Issue where
  path : List PathSeg
  message : String
  code : String
  received : Option Value := none
  expected : Option String := none

/-- Outcome of a `_parse` call: the returned `ValidationResult` (success or
failure), or a JS exception propagating out of the call. -/
inductive ParseOutcome where
  | ok (data : Value)
  | fail (issues : List Issue)
  | thrown (e : Thrown)

/-- The issues of a failure outcome (empty for the other outcomes). -/
def issuesOf : ParseOutcome → List Issue
  | .fail iss => iss
  | _ => []

/-- Is the outcome a returned failure? -/
def isFail : ParseOutcome → Bool
  | .fail _ => true
  | _ => false

/-- Is the outcome a returned success? -/
def isOk : ParseOutcome → Bool
  | .ok _ => true
  | _ => false

/-- Is the outcome a propagating exception? -/
def isThrown : ParseOutcome → Bool
  | .thrown _ => true
  | _ => false

/-! ### String-constraint helpers -/

/-- An ASCII whitespace character (the regex class `\s`; the further Unicode
space characters JS would also accept are not relevant to any theorem). -/
def isJsSpace (c : Char) : Bool :=
  c == ' ' || c == '\t' || c == '\n' || c == '\r' || c == '\x0b' || c == '\x0c'

/-- A character allowed inside the parts of the email regex: `[^\s@]`. -/
def emailCharOk (c : Char) : Bool :=
  !(c == '@') && !isJsSpace c

/-- `isEmail`: does `/^[^\s@]+@[^\s@]+\.[^\s@]+$/` accept the string?  The
regex test succeeds exactly when the string splits as `a ++ "@" ++ b ++ "." ++
c` with `a`, `b`, `c` nonempty and free of `@` and whitespace; the search below
enumerates the split points. -/
def emailOk (s : String) : Bool :=
  let cs := s.data
  (List.range cs.length).any fun ai =>
    cs.getD ai ' ' == '@' &&
    (let a := cs.take ai
     let r := cs.drop (ai + 1)
     !a.isEmpty && a.all emailCharOk &&
     ((List.range r.length).any fun di =>
       r.getD di ' ' == '.' &&
       (let b := r.take di
        let c := r.drop (di + 1)
        !b.isEmpty && b.all emailCharOk && !c.isEmpty && c.all emailCharOk)))

/-- A scheme character after the initial letter. -/
def schemeCharOk (c : Char) : Bool :=
  c.isAlphanum || c == '+' || c == '-' || c == '.'

/-- Modelled from the spec: `isUrl` delegates to the host's `new URL(value)`
constructor ("standard URL constructor semantics"), which is not code of this
repository; modelled as: the string starts with a scheme — an ASCII letter
followed by letters, digits, `+`, `-` or `.` — terminated by a colon.  No
theorem depends on which strings are accepted. -/
def urlOk (s : String) : Bool :=
  match s.data with
  | [] => false
  | c :: rest =>
    c.isAlpha &&
    ((List.range rest.length).any fun i =>
      rest.getD i ' ' == ':' && (rest.take i).all schemeCharOk)

/-- A hexadecimal digit (either case). -/
def hexOk (c : Char) : Bool :=
  c.isDigit || ('a' ≤ c && c ≤ 'f') || ('A' ≤ c && c ≤ 'F')

/-- `isUuid`: the regex
`/^[0-9a-f]{8}-[0-9a-f]{4}-[1-5][0-9a-f]{3}-[89ab][0-9a-f]{3}-[0-9a-f]{12}$/i`:
36 characters, hyphens at positions 8, 13, 18 and 23, a version digit `1`-`5`
at position 14, a variant digit `8`, `9`, `a` or `b` (either case) at position
19, and hex digits everywhere else. -/
def uuidOk (s : String) : Bool :=
  let cs := s.data
  cs.length == 36 &&
  ((List.range 36).all fun i =>
    let c := cs.getD i ' '
    if i == 8 || i == 13 || i == 18 || i == 23 then c == '-'
    else if i == 14 then '1' ≤ c && c ≤ '5'
    else if i == 19 then
      c == '8' || c == '9' || c == 'a' || c == 'b' || c == 'A' || c == 'B'
    else hexOk c)

/-! ### JS string coercion and JSON rendering (used only inside messages) -/

/-- JS `String(v)` for non-sequence values.  Nested sequences inside a
sequence are not expanded (a modelling boundary: no theorem depends on the
message text of `enum` issues). -/
def jsToStringScalar : Value → String
  | .undef => "undefined"
  | .null => "null"
  | .bool true => "true"
  | .bool false => "false"
  | .nan => "NaN"
  | .num j => j.toStr
  | .str s => s
  | .arr _ => ""
  | .obj _ => "[object Object]"

/-- How one array element renders inside `Array.prototype.toString`:
`null` and `undefined` render as the empty string. -/
def jsArrElemStr : Value → String
  | .undef => ""
  | .null => ""
  | v => jsToStringScalar v

/-- JS `String(v)`. -/
def jsToString : Value → String
  | .arr xs => String.intercalate "," (xs.map jsArrElemStr)
  | v => jsToStringScalar v

/-- One hex digit. -/
def hexDigit (n : Nat) : Char :=
  if n < 10 then Char.ofNat ('0'.toNat + n) else Char.ofNat ('a'.toNat + (n - 10))

/-- JSON escaping of one character. -/
def jsonEscChar (c : Char) : String :=
  if c == '"' then "\\\""
  else if c == '\\' then "\\\\"
  else if c == '\n' then "\\n"
  else if c == '\r' then "\\r"
  else if c == '\t' then "\\t"
  else if c == '\x08' then "\\b"
  else if c == '\x0c' then "\\f"
  else if c.toNat < 32 then
    "\\u00" ++ String.mk [hexDigit (c.toNat / 16), hexDigit (c.toNat % 16)]
  else String.mk [c]

/-- JSON escaping of a string body. -/
def jsonEscape (s : String) : String :=
  s.data.foldl (fun acc c => acc ++ jsonEscChar c) ""

/-- A literal schema's fixed value: `string | number | boolean`. -/
inductive Prim where
  | s (v : String)
  | n (j : JSNum)
  | b (v : Bool)

/-- `JSON.stringify` of a literal value. -/
def jsonOfPrim : Prim → String
  | .s v => "\"" ++ jsonEscape v ++ "\""
  | .n j => j.toStr
  | .b true => "true"
  | .b false => "false"

/-- JS strict equality `data === value` between an arbitrary value and a
literal's fixed primitive. -/
def primEqValue : Prim → Value → Bool
  | .s a, .str b => a == b
  | .n a, .num b => JSNum.eq a b
  | .b a, .bool b => a == b
  | _, _ => false

/-! ### Primitive schemas

The `ValidationResult` returned by the source also carries a lazily-evaluated
`format` closure next to `issues`; that closure is derived data (it renders the
same issues) and is not modelled — `QeraValidationError.format`, the formatter
the spec describes, is modelled below as `formatIssues`. -/

/-- The constraint state of a `QeraStringSchema` (its private `_min`, `_max`,
`_pattern`, `_email`, `_url`, `_uuid` fields).  The `RegExp` stored by
`regex()` is modelled as its `test` function. -/
structure StringConfig where
  _min : Option JSNum := none
  _max : Option JSNum := none
  _pattern : Option (String → Bool) := none
  _email : Bool := false
  _url : Bool := false
  _uuid : Bool := false

/-- The `issues` accumulated by `QeraStringSchema._parse` over a string input:
one independent block per configured constraint, in source order. -/
def stringIssues (cfg : StringConfig) (s : String) (path : List PathSeg) :
    List Issue :=
  (match cfg._min with
       | some m =>
         if JSNum.lt (JSNum.ofNat s.length) m then
           [{ path, message := "String must contain at least " ++ m.toStr ++
                " character(s)", code := "too_small",
              received := some (.num (JSNum.ofNat s.length)) }]
         else []
       | none => []) ++
      (match cfg._max with
       | some m =>
         if JSNum.lt m (JSNum.ofNat s.length) then
           [{ path, message := "String must contain at most " ++ m.toStr ++
                " character(s)", code := "too_big",
              received := some (.num (JSNum.ofNat s.length)) }]
         else []
       | none => []) ++
      (match cfg._pattern with
       | some test =>
         if !test s then
           [{ path, message := "Invalid format", code := "invalid_string" }]
         else []
       | none => []) ++
      (if cfg._email && !emailOk s then
        [{ path, message := "Invalid email", code := "invalid_string" }]
       else []) ++
      (if cfg._url && !urlOk s then
        [{ path, message := "Invalid url", code := "invalid_string" }]
       else []) ++
      (if cfg._uuid && !uuidOk s then
        [{ path, message := "Invalid uuid", code := "invalid_string" }]
       else [])

/-- `QeraStringSchema._parse`. -/
def stringParse (cfg : StringConfig) (data : Value) (path : List PathSeg) :
    ParseOutcome :=
  match data with
  | .str s =>
    let issues := stringIssues cfg s path
    if issues.length > 0 then .fail issues else .ok (.str s)
  | _ =>
    .fail [{ path, message := "Expected string, received " ++ typeofV data,
             code := "invalid_type", received := some (.str (typeofV data)),
             expected := some "string" }]

/-- The constraint state of a `QeraNumberSchema`. -/
structure NumberConfig where
  _min : Option JSNum := none
  _max : Option JSNum := none
  _int : Bool := false
  _positive : Bool := false
  _negative : Bool := false
  _nonnegative : Bool := false

/-- The JS number zero. -/
def jsZero : JSNum := ⟨0, 0⟩

/-- The `issues` accumulated by `QeraNumberSchema._parse` over a (non-`NaN`)
number input: one independent block per configured constraint, in source
order. -/
def numberIssues (cfg : NumberConfig) (j : JSNum) (path : List PathSeg) :
    List Issue :=
  (if cfg._int && !j.isInt then
        [{ path, message := "Expected integer, received float",
           code := "invalid_type" }]
       else []) ++
      (match cfg._min with
       | some m =>
         if JSNum.lt j m then
           [{ path, message := "Number must be greater than or equal to " ++
                m.toStr, code := "too_small", received := some (.num j) }]
         else []
       | none => []) ++
      (match cfg._max with
       | some m =>
         if JSNum.lt m j then
           [{ path, message := "Number must be less than or equal to " ++
                m.toStr, code := "too_big", received := some (.num j) }]
         else []
       | none => []) ++
      (if cfg._positive && JSNum.le j jsZero then
        [{ path, message := "Number must be positive", code := "too_small" }]
       else []) ++
      (if cfg._negative && JSNum.le jsZero j then
        [{ path, message := "Number must be negative", code := "too_big" }]
       else []) ++
      (if cfg._nonnegative && JSNum.lt j jsZero then
        [{ path, message := "Number must be non-negative",
           code := "too_small" }]
       else [])

/-- `QeraNumberSchema._parse`.  The guard `typeof data !== 'number' ||
isNaN(data)` admits exactly the non-`NaN` numbers. -/
def numberParse (cfg : NumberConfig) (data : Value) (path : List PathSeg) :
    ParseOutcome :=
  match data with
  | .num j =>
    let issues := numberIssues cfg j path
    if issues.length > 0 then .fail issues else .ok (.num j)
  | _ =>
    .fail [{ path, message := "Expected number, received " ++ typeofV data,
             code := "invalid_type", received := some (.str (typeofV data)),
             expected := some "number" }]

/-- `QeraBooleanSchema._parse`. -/
def booleanParse (data : Value) (path : List PathSeg) : ParseOutcome :=
  match data with
  | .bool b => .ok (.bool b)
  | _ =>
    .fail [{ path, message := "Expected boolean, received " ++ typeofV data,
             code := "invalid_type", received := some (.str (typeofV data)),
             expected := some "boolean" }]

/-- `QeraLiteralSchema._parse`. -/
def literalParse (v : Prim) (data : Value) (path : List PathSeg) :
    ParseOutcome :=
  if primEqValue v data then .ok data
  else
    .fail [{ path,
             message := "Invalid literal value, expected " ++ jsonOfPrim v,
             code := "invalid_literal", received := some data,
             expected := some (jsonOfPrim v) }]

/-- `QeraEnumSchema._parse`.  `values.includes(data)` compares with strict
equality, so only a string input can be a member. -/
def enumParse (values : List String) (data : Value) (path : List PathSeg) :
    ParseOutcome :=
  let member := match data with
    | .str s => values.contains s
    | _ => false
  if member then .ok data
  else
    .fail [{ path,
             message := "Invalid enum value. Expected " ++
               String.intercalate " | " (values.map fun v => "\x27" ++ v ++ "\x27") ++
               ", received \x27" ++ jsToString data ++ "\x27",
             code := "invalid_enum_value", received := some data,
             expected := some (String.intercalate " | " values) }]

/-- `QeraVoidSchema._parse`. -/
def voidParse (data : Value) (path : List PathSeg) : ParseOutcome :=
  match data with
  | .undef => .ok .undef
  | _ =>
    .fail [{ path, message := "Expected void, received " ++ typeofV data,
             code := "invalid_type", received := some (.str (typeofV data)),
             expected := some "void" }]

/-- `QeraNullSchema._parse`. -/
def nullParse (data : Value) (path : List PathSeg) : ParseOutcome :=
  match data with
  | .null => .ok .null
  | _ =>
    .fail [{ path, message := "Expected null, received " ++ typeofV data,
             code := "invalid_type", received := some (.str (typeofV data)),
             expected := some "null" }]

/-- `QeraUndefinedSchema._parse`. -/
def undefinedParse (data : Value) (path : List PathSeg) : ParseOutcome :=
  match data with
  | .undef => .ok .undef
  | _ =>
    .fail [{ path, message := "Expected undefined, received " ++ typeofV data,
             code := "invalid_type", received := some (.str (typeofV data)),
             expected := some "undefined" }]

/-! ### Composite schemas and combinators -/

/-- The constraint state of a `QeraArraySchema` (its `_min`/`_max`). -/
structure ArrayConfig where
  _min : Option JSNum := none
  _max : Option JSNum := none

/-- The cardinality issues of `QeraArraySchema._parse` (its first two `if`s),
pushed before the element loop runs. -/
def arrayCardIssues (cfg : ArrayConfig) (len : Nat) (path : List PathSeg) :
    List Issue :=
  (match cfg._min with
   | some m =>
     if JSNum.lt (JSNum.ofNat len) m then
       [{ path, message := "Array must contain at least " ++ m.toStr ++
            " element(s)", code := "too_small",
          received := some (.num (JSNum.ofNat len)) }]
     else []
   | none => []) ++
  (match cfg._max with
   | some m =>
     if JSNum.lt m (JSNum.ofNat len) then
       [{ path, message := "Array must contain at most " ++ m.toStr ++
            " element(s)", code := "too_big",
          received := some (.num (JSNum.ofNat len)) }]
     else []
   | none => [])

/-- Result of the element loop of `QeraArraySchema._parse`: either an element
parse threw (aborting the loop and propagating), or the loop finished with the
collected issues (in index order) and the successfully parsed elements.  On
failure the source leaves a hole in `parsedData` at a failed index; since
`parsedData` is only returned when there are no issues at all, the holes are
modelled by simply skipping failed elements. -/
inductive ElemsRes where
  | ethrown (e : Thrown)
  | edone (issues : List Issue) (parsed : List Value)

/-- The element loop, generic in the per-index element parser `f` (which the
array schema instantiates with `this.element._parse(data[i],
[...path, i.toString()])`); `i` is the index of the head of `xs`. -/
def parseElems (f : Nat → Value → ParseOutcome) (xs : List Value) (i : Nat) :
    ElemsRes :=
  match xs with
  | [] => .edone [] []
  | v :: tl =>
    match f i v with
    | .thrown e => .ethrown e
    | .fail iss =>
      match parseElems f tl (i + 1) with
      | .ethrown e => .ethrown e
      | .edone iss2 ps => .edone (iss ++ iss2) ps
    | .ok pv =>
      match parseElems f tl (i + 1) with
      | .ethrown e => .ethrown e
      | .edone iss2 ps => .edone iss2 (pv :: ps)

/-- First-match field lookup in a JS mapping (`data[key]`, `undefined` when
absent is applied by the caller). -/
def getField (fields : List (String × Value)) (key : String) : Option Value :=
  match fields with
  | [] => none
  | (k, v) :: tl => if k == key then some v else getField tl key

/-- JS property assignment `o[key] = v`: overwrite in place (keeping the key's
position) when the key exists, append otherwise. -/
def setField (fields : List (String × Value)) (key : String) (v : Value) :
    List (String × Value)  :=
  match fields with
  | [] => [(key, v)]
  | (k, w) :: tl =>
    if k == key then (key, v) :: tl else (k, w) :: setField tl key v

/-- Apply the field assignments collected by the object field loop, in loop
order, to the initial `parsedData`. -/
def applyAssigns (init : List (String × Value))
    (asgs : List (String × Value)) : List (String × Value) :=
  asgs.foldl (fun acc kv => setField acc kv.1 kv.2) init

/-- Result of the field loop of `QeraObjectSchema._parse`: a propagating
exception, or the collected issues plus the `parsedData[key] = ...`
assignments in loop order. -/
inductive FieldsRes where
  | fthrown (e : Thrown)
  | fdone (issues : List Issue) (asgs : List (String × Value))

/-- `data === null ? 'null' : Array.isArray(data) ? 'array' : typeof data`. -/
def objReceived : Value → String
  | .null => "null"
  | .arr _ => "array"
  | v => typeofV v

/-- The `unrecognized_keys` issues of `strict()` mode: one per own key of the
input not declared in the shape, in input-key order. -/
def unknownKeyIssues (shapeKeys : List String)
    (fields : List (String × Value)) (path : List PathSeg) : List Issue :=
  fields.filterMap fun kv =>
    if shapeKeys.contains kv.1 then none
    else some { path := path ++ [.str kv.1],
                message := "Unrecognized key(s) in object: \x27" ++ kv.1 ++ "\x27",
                code := "unrecognized_keys" }

mutual

/-- A schema object: one constructor per `QeraSchema` subclass.  User-supplied
`refine`/`transform` callbacks may throw, hence their `Except Thrown`
codomain. -/
inductive Schema where
  | string (cfg : StringConfig)
  | number (cfg : NumberConfig)
  | boolean
  | array (cfg : ArrayConfig) (element : Schema)
  | object (strictFlag passthroughFlag : Bool) (shape : Shape)
  | union (alts : Alts)
  | literal (v : Prim)
  | enum (values : List String)
  | optional (inner : Schema)
  | nullable (inner : Schema)
  | default (inner : Schema) (defaultValue : Value)
  | refine (inner : Schema) (pred : Value → Except Thrown Bool) (msg : String)
  | transform (inner : Schema) (f : Value → Except Thrown Value)
  | any
  | unknown
  | void
  | null
  | undefined

/-- An object schema's shape: the declared fields, in declaration order. -/
inductive Shape where
  | nil
  | cons (key : String) (sch : Schema) (tl : Shape)

/-- A union schema's alternatives, in declaration order. -/
inductive Alts where
  | nil
  | cons (sch : Schema) (tl : Alts)

end

/-- The declared field names of a shape, in declaration order. -/
def shapeKeys : Shape → List String
  | .nil => []
  | .cons k _ tl => k :: shapeKeys tl

/-- First-match lookup of a declared field's schema. -/
def shapeLookup : Shape → String → Option Schema
  | .nil, _ => none
  | .cons k sch tl, key => if k == key then some sch else shapeLookup tl key

/-- The alternatives as a plain list, in declaration order. -/
def Alts.toList : Alts → List Schema
  | .nil => []
  | .cons sch tl => sch :: toList tl

instance : Inhabited Schema := ⟨.any⟩

mutual

/-- `_parse(data, path)`, dispatched on the schema variant.  Mirrors each
subclass's `_parse` from the source; a `.thrown` outcome models a JS exception
unwinding out of the call (only user `refine`/`transform` callbacks throw, and
only `transform` wraps its callback in `try`/`catch`). -/
def parseS : Schema → Value → List PathSeg → ParseOutcome
  | .string cfg, data, path => stringParse cfg data path
  | .number cfg, data, path => numberParse cfg data path
  | .boolean, data, path => booleanParse data path
  | .array cfg element, data, path =>
    match data with
    | .arr xs =>
      -- cardinality issues are pushed first, then the element loop runs;
      -- an exception from an element aborts the whole call
      match parseElems
          (fun i v => parseS element v (path ++ [.str (Nat.repr i)])) xs 0 with
      | .ethrown e => .thrown e
      | .edone elemIss parsed =>
        let issues := arrayCardIssues cfg xs.length path ++ elemIss
        if issues.length > 0 then .fail issues else .ok (.arr parsed)
    | _ =>
      .fail [{ path, message := "Expected array, received " ++ typeofV data,
               code := "invalid_type", received := some (.str (typeofV data)),
               expected := some "array" }]
  | .object strictFlag passthroughFlag shape, data, path =>
    match data with
    | .obj fields =>
      match parseFields shape fields path with
      | .fthrown e => .thrown e
      | .fdone fieldIss asgs =>
        let init := if passthroughFlag then fields else []
        let parsedData := applyAssigns init asgs
        let strictIss :=
          if strictFlag then unknownKeyIssues (shapeKeys shape) fields path
          else []
        let issues := fieldIss ++ strictIss
        if issues.length > 0 then .fail issues else .ok (.obj parsedData)
    | _ =>
      .fail [{ path,
               message := "Expected object, received " ++ objReceived data,
               code := "invalid_type", received := some (.str (objReceived data)),
               expected := some "object" }]
  | .union alts, data, path => parseAlts alts data path []
  | .literal v, data, path => literalParse v data path
  | .enum values, data, path => enumParse values data path
  | .optional inner, data, path =>
    match data with
    | .undef => .ok .undef
    | _ => parseS inner data path
  | .nullable inner, data, path =>
    match data with
    | .null => .ok .null
    | _ => parseS inner data path
  | .default inner defaultValue, data, path =>
    match data with
    | .undef => .ok defaultValue
    | _ => parseS inner data path
  | .refine inner pred msg, data, path =>
    match parseS inner data path with
    | .thrown e => .thrown e
    | .fail iss => .fail iss
    | .ok v =>
      -- the predicate call is NOT wrapped in try/catch: a throwing
      -- predicate propagates out of `_parse`
      match pred v with
      | .error e => .thrown e
      | .ok b =>
        if !b then
          .fail [{ path, message := msg, code := "custom" }]
        else .ok v
  | .transform inner f, data, path =>
    match parseS inner data path with
    | .thrown e => .thrown e
    | .fail iss => .fail iss
    | .ok v =>
      -- the transformer call IS wrapped in try/catch
      match f v with
      | .ok u => .ok u
      | .error (.errObj m) =>
        .fail [{ path, message := m, code := "custom" }]
      | .error .nonErr =>
        .fail [{ path, message := "Transformation failed", code := "custom" }]
  | .any, data, _ => .ok data
  | .unknown, data, _ => .ok data
  | .void, data, path => voidParse data path
  | .null, data, path => nullParse data path
  | .undefined, data, path => undefinedParse data path

/-- The field loop of `QeraObjectSchema._parse`: each declared field is parsed
against `data[key]` (or `undefined` when absent) at `[...path, key]`; issues
accumulate across fields, successes record an assignment. -/
def parseFields : Shape → List (String × Value) → List PathSeg → FieldsRes
  | .nil, _, _ => .fdone [] []
  | .cons key sch tl, fields, path =>
    match parseS sch ((getField fields key).getD .undef) (path ++ [.str key]) with
    | .thrown e => .fthrown e
    | .fail iss =>
      match parseFields tl fields path with
      | .fthrown e => .fthrown e
      | .fdone iss2 asgs => .fdone (iss ++ iss2) asgs
    | .ok v =>
      match parseFields tl fields path with
      | .fthrown e => .fthrown e
      | .fdone iss2 asgs => .fdone iss2 ((key, v) :: asgs)

/-- The alternative loop of `QeraUnionSchema._parse`: first success wins; the
per-alternative issues are accumulated (in `acc`, as in the source's `issues`
variable) but discarded when every alternative has failed — the result is then
a single synthetic `invalid_union` issue at the union's own path. -/
def parseAlts : Alts → Value → List PathSeg → List Issue → ParseOutcome
  | .nil, _, path, _ =>
    .fail [{ path, message := "Invalid input", code := "invalid_union" }]
  | .cons sch tl, data, path, acc =>
    match parseS sch data path with
    | .ok v => .ok v
    | .thrown e => .thrown e
    | .fail iss => parseAlts tl data path (acc ++ iss)

end

/-! ### The throwing and non-throwing entry points -/

/-- Outcome of the throwing entry point `parse(data)`: the unwrapped value, a
raised `QeraValidationError` carrying the issues, or some other exception
(from a user callback) unwinding through `parse`. -/
inductive ParseResultE where
  | ok (v : Value)
  | raisedValidation (issues : List Issue)
  | raisedOther (e : Thrown)

/-- `QeraSchema.parse`. -/
def parse (s : Schema) (data : Value) : ParseResultE :=
  match parseS s data [] with
  | .ok v => .ok v
  | .fail iss => .raisedValidation iss
  | .thrown e => .raisedOther e

/-- The `ValidationResult` returned by `safeParse`: tagged success or
failure. -/
inductive VResult where
  | succ (data : Value)
  | failr (issues : List Issue)

/-- Is the result tagged successful? -/
def VResult.success : VResult → Bool
  | .succ _ => true
  | .failr _ => false

/-- `error instanceof Error ? error.message : 'Unknown error'`. -/
def unknownMsg : Thrown → String
  | .errObj m => m
  | .nonErr => "Unknown error"

/-- `QeraSchema.safeParse`: never raises; a caught exception becomes a single
synthetic `unknown_error` issue at the root path. -/
def safeParse (s : Schema) (data : Value) : VResult :=
  match parseS s data [] with
  | .ok v => .succ v
  | .fail iss => .failr iss
  | .thrown e =>
    .failr [{ path := [], message := unknownMsg e, code := "unknown_error" }]

/-! ### `QeraValidationError.format`

The formatter mutates a plain JS object graph.  The graph is modelled by
`JVal`: ordinary objects are `node`s over an ordered property list, and the
`_errors` arrays are `slist`s.  The source's `current[key]._errors.push(...)`
throws a `TypeError` when `current[key]` exists but has no `_errors` array (or
when `_errors` is not an array); a thrown `TypeError` is modelled as
`Except.error ()`. -/

/-- A node of the formatted error graph: a plain object, or an array of
message strings (an `_errors` list). -/
inductive JVal where
  | node (props : List (String × JVal))
  | slist (elems : List String)

/-- Property read `o[key]` (absent means JS `undefined`, which is falsy). -/
def getProp (props : List (String × JVal)) (key : String) : Option JVal :=
  match props with
  | [] => none
  | (k, v) :: tl => if k == key then some v else getProp tl key

/-- Property write `o[key] = v`. -/
def setProp (props : List (String × JVal)) (key : String) (v : JVal) :
    List (String × JVal) :=
  match props with
  | [] => [(key, v)]
  | (k, w) :: tl =>
    if k == key then (key, v) :: tl else (k, w) :: setProp tl key v

/-- The inner `for (let i = ...)` walk of `format` for one issue with a
nonempty path: create/walk intermediate nodes, and at the terminal key create
`{_errors: []}` and push, or push onto the existing node's `_errors`.
`Except.error ()` is the `TypeError` raised by `.push` when the terminal node
exists without an `_errors` array.  Walking *into* an `slist` (which in JS
would attach properties to the `_errors` array itself) can only happen when a
path segment is the key `"_errors"`; it is mapped to the error case as a
modelling boundary — no theorem evaluates `format` on such paths. -/
def insertGo (t : JVal) (segs : List String) (msg : String) :
    Except Unit JVal :=
  match t with
  | .slist _ => .error ()
  | .node props =>
    match segs with
    | [] => .ok (.node props)
    | [k] =>
      match getProp props k with
      | none =>
        .ok (.node (setProp props k (.node [("_errors", .slist [msg])])))
      | some (.node cprops) =>
        match getProp cprops "_errors" with
        | some (.slist xs) =>
          .ok (.node (setProp props k
            (.node (setProp cprops "_errors" (.slist (xs ++ [msg]))))))
        | some (.node _) => .error ()
        | none => .error ()
      | some (.slist _) => .error ()
    | k :: rest =>
      match getProp props k with
      | none =>
        match insertGo (.node []) rest msg with
        | .error u => .error u
        | .ok c => .ok (.node (setProp props k c))
      | some c =>
        match insertGo c rest msg with
        | .error u => .error u
        | .ok c' => .ok (.node (setProp props k c'))

/-- An issue-path segment used as a JS property key (a number would be coerced
to its decimal string). -/
def segKey : PathSeg → String
  | .str s => s
  | .int n => toString n

/-- An issue's path as a list of JS property keys. -/
def kpath (i : Issue) : List String := i.path.map segKey

/-- Process one issue of `format`'s outer loop: the path walk for a nonempty
path, or the append to the root `_errors` list for an empty path. -/
def insertIssue (t : JVal) (i : Issue) : Except Unit JVal :=
  if i.path.isEmpty then
    match t with
    | .slist _ => .error ()
    | .node props =>
      match getProp props "_errors" with
      | none => .ok (.node (setProp props "_errors" (.slist [i.message])))
      | some (.slist xs) =>
        .ok (.node (setProp props "_errors" (.slist (xs ++ [i.message]))))
      | some (.node _) => .error ()
  else insertGo t (kpath i) i.message

/-- `QeraValidationError.format`: fold the issues, in order, into an initially
empty root object. -/
def formatIssues (issues : List Issue) : Except Unit JVal :=
  issues.foldlM insertIssue (.node [])

/-- The graph node reached by walking the given property keys. -/
def propAt (t : JVal) (p : List String) : Option JVal :=
  match p with
  | [] => some t
  | k :: rest =>
    match t with
    | .slist _ => none
    | .node props =>
      match getProp props k with
      | none => none
      | some c => propAt c rest

/-- The `_errors` messages recorded at the node reached by `p` (empty when the
node or its list is absent). -/
def errorsAt (t : JVal) (p : List String) : List String :=
  match propAt t p with
  | some (.node props) =>
    match getProp props "_errors" with
    | some (.slist xs) => xs
    | _ => []
  | _ => []

/-- No key along any issue's path is the reserved key `"_errors"`. -/
def pathsAvoidErrorsKey (issues : List Issue) : Bool :=
  issues.all fun i => !(kpath i).contains "_errors"

/-- No issue's nonempty path is a proper prefix of an *earlier* issue's path
(the order under which the terminal node, when it already exists, is
guaranteed to carry an `_errors` list). -/
def noLaterProperPrefix : List Issue → Bool
  | [] => true
  | i :: tl =>
    (tl.all fun j =>
      (kpath j).isEmpty || kpath j == kpath i ||
      !(kpath j).isPrefixOf (kpath i)) &&
    noLaterProperPrefix tl

/-- Well-formedness of the (partially built) formatted graph: every node
reached by a walk avoiding the key `"_errors"` is a plain object node, and
every `_errors` slot reached that way is either absent or a nonempty message
array. -/
def WFat (t : JVal) : Prop :=
  (∀ q c, "_errors" ∉ q → propAt t q = some c → ∃ props, c = .node props) ∧
  (∀ q, "_errors" ∉ q → propAt t (q ++ ["_errors"]) = none ∨
    ∃ xs, xs ≠ [] ∧ propAt t (q ++ ["_errors"]) = some (.slist xs))

/-! ### Builder mutation (claim C8)

`QeraStringSchema.min` executes `this._min = length; return this`: it mutates
the receiver object and returns the *same* reference (`QeraNumberSchema.min`
is identical).  To make the aliasing observable, schema objects live in a
heap indexed by reference ids. -/

/-- A heap of `QeraStringSchema` objects. -/
def StrHeap : Type := Nat → StringConfig

/-- A heap of `QeraNumberSchema` objects. -/
def NumHeap : Type := Nat → NumberConfig

/-- `QeraStringSchema.min(length)` on the object at `r`: set `_min` in place
and return `this` (the unchanged reference), paired with the updated heap. -/
def stringMinH (h : StrHeap) (r : Nat) (len : JSNum) : StrHeap × Nat :=
  (fun r' => if r' = r then { h r with _min := some len } else h r', r)

/-- `QeraNumberSchema.min(value)` on the object at `r`. -/
def numberMinH (h : NumHeap) (r : Nat) (v : JSNum) : NumHeap × Nat :=
  (fun r' => if r' = r then { h r with _min := some v } else h r', r)

/-- `_parse` through a heap reference to a string schema. -/
def parseStrRef (h : StrHeap) (r : Nat) (data : Value) : ParseOutcome :=
  stringParse (h r) data []

/-! ### Observations used to state the theorems -/

/-- Is a configured `min` length violated by `s`? -/
def strMinViolated (cfg : StringConfig) (s : String) : Bool :=
  match cfg._min with
  | some m => JSNum.lt (JSNum.ofNat s.length) m
  | none => false

/-- Is a configured `max` length violated by `s`? -/
def strMaxViolated (cfg : StringConfig) (s : String) : Bool :=
  match cfg._max with
  | some m => JSNum.lt m (JSNum.ofNat s.length)
  | none => false

/-- Is a configured `regex` pattern violated by `s`? -/
def strPatternViolated (cfg : StringConfig) (s : String) : Bool :=
  match cfg._pattern with
  | some test => !test s
  | none => false

/-- Is a configured `email()` check violated by `s`? -/
def strEmailViolated (cfg : StringConfig) (s : String) : Bool :=
  cfg._email && !emailOk s

/-- Is a configured `url()` check violated by `s`? -/
def strUrlViolated (cfg : StringConfig) (s : String) : Bool :=
  cfg._url && !urlOk s

/-- Is a configured `uuid()` check violated by `s`? -/
def strUuidViolated (cfg : StringConfig) (s : String) : Bool :=
  cfg._uuid && !uuidOk s

/-- The message the `transform` combinator's `catch` block derives from a
thrown value: `error instanceof Error ? error.message : 'Transformation
failed'`. -/
def transformCatchMsg : Thrown → String
  | .errObj m => m
  | .nonErr => "Transformation failed"

/-! ### Concrete instances used by the witness theorems -/

/-- The numeric value of a digit string. -/
def digitsVal (cs : List Char) : Nat :=
  cs.foldl (fun a c => a * 10 + (c.toNat - '0'.toNat)) 0

/-- Modelled from the spec: JS `parseInt` (a host builtin, not code of this
repository) on its radix-10 happy path — skip leading whitespace, read an
optional sign and a digit prefix, `NaN` when there is none.  It only appears
inside a `transform` callback that claim C7 shows is *not* invoked. -/
def jsParseInt (s : String) : Value :=
  let cs := s.data.dropWhile fun c => isJsSpace c
  let sr : Bool × List Char :=
    match cs with
    | '-' :: tl => (true, tl)
    | '+' :: tl => (false, tl)
    | l => (false, l)
  let ds := sr.2.takeWhile Char.isDigit
  if ds.isEmpty then .nan
  else .num ⟨if sr.1 then -(digitsVal ds : Int) else (digitsVal ds : Int), 0⟩

/-- A user predicate that throws an `Error` with message `"boom"`. -/
def throwingPred : Value → Except Thrown Bool := fun _ => .error (.errObj "boom")

/-- A user predicate that throws a non-`Error` value. -/
def throwingPredNE : Value → Except Thrown Bool := fun _ => .error .nonErr

/-- A user transformer that throws an `Error` with message `"boom"`. -/
def throwingF : Value → Except Thrown Value := fun _ => .error (.errObj "boom")

/-- `any().refine(<throwing predicate>, 'bad')`. -/
def cRefineThrow : Schema := .refine .any throwingPred "bad"

/-- `string().transform(s => parseInt(s))`. -/
def pageInner : Schema :=
  .transform (.string {}) fun v => .ok (jsParseInt (jsToString v))

/-- `object({page: string().transform(s => parseInt(s)).default(1)})`. -/
def pageSchema : Schema :=
  .object false false (.cons "page" (.default pageInner (.num ⟨1, 0⟩)) .nil)

/-- `object({a: string().min(2), b: number()})` — two fields that the C6
witness input both violates. -/
def c6Shape : Shape :=
  .cons "a" (.string { _min := some ⟨2, 0⟩ }) (.cons "b" (.number {}) .nil)

/-- The issues of parsing `{a: "J", b: "x"}` against `c6Shape`. -/
def c6Issues : List Issue :=
  issuesOf (parseS (.object false false c6Shape)
    (.obj [("a", .str "J"), ("b", .str "x")]) [])

/-- `object({a: string().optional()})`. -/
def c10Shape : Shape := .cons "a" (.optional (.string {})) .nil

/-- A three-element input sequence with two non-string elements. -/
def c5Vals : List Value := [.num ⟨1, 0⟩, .str "ok", .bool true]

/-! ## Theorems -/

/-- An outcome is a failure exactly when it is a `fail`. -/
theorem isFail_iff (o : ParseOutcome) : isFail o = true ↔ ∃ iss, o = .fail iss := by
  cases o <;> simp [isFail]

/-- C1: for every schema and input, `safeParse` succeeds exactly when `parse`
does not raise; on success both yield the same data; and an exception thrown
during `_parse` becomes a failure with a single `unknown_error` issue at the
root path — `safeParse` itself never raises (its codomain has no raising
variant). -/
theorem claim_C1 (s : Schema) (x : Value) :
    ((safeParse s x).success = true ↔ ∃ v, parse s x = .ok v) ∧
    (∀ v, safeParse s x = .succ v ↔ parse s x = .ok v) ∧
    (∀ e, parseS s x [] = .thrown e →
      safeParse s x = .failr [{ path := [], message := unknownMsg e,
                                code := "unknown_error" }]) := by
  unfold safeParse parse
  cases h : parseS s x [] with
  | ok v => simp [VResult.success]
  | fail iss => simp [VResult.success]
  | thrown e => simp [VResult.success]

/-- C1 witness: a schema whose refinement predicate throws; `safeParse` traps
the exception as a root `unknown_error` issue. -/
theorem claim_C1_witness :
    safeParse cRefineThrow (.str "x")
      = .failr [{ path := [], message := "boom", code := "unknown_error" }] :=
  (claim_C1 cRefineThrow (.str "x")).2.2 (.errObj "boom") rfl

/-- C2 counterexample: a throwing `refine` predicate is *not* caught at the
combinator boundary — the exception propagates out of `_parse` instead of
becoming a `custom` failure (only `transform` wraps its callback in
`try`/`catch`). -/
theorem claim_C2_counterexample :
    parseS cRefineThrow (.str "x") [] = .thrown (.errObj "boom") ∧
    isFail (parseS cRefineThrow (.str "x") []) = false :=
  ⟨rfl, rfl⟩

/-- C2 amended: when the inner schema succeeds, a throwing `transform` mapper
is caught and converted into a single `custom` issue at the current path
(message = the thrown error's message, or 'Transformation failed' for a
non-`Error`), while a throwing `refine` predicate propagates out of the
combinator's `_parse` uncaught. -/
theorem claim_C2_amended (inner : Schema) (pred : Value → Except Thrown Bool)
    (msg : String) (f : Value → Except Thrown Value) (data : Value)
    (p : List PathSeg) (v : Value) (e : Thrown)
    (hok : parseS inner data p = .ok v) :
    (f v = .error e →
      parseS (.transform inner f) data p
        = .fail [{ path := p, message := transformCatchMsg e, code := "custom" }]) ∧
    (pred v = .error e → parseS (.refine inner pred msg) data p = .thrown e) := by
  constructor
  · intro hf
    show (match parseS inner data p with
      | .thrown e => ParseOutcome.thrown e
      | .fail iss => .fail iss
      | .ok v => _) = _
    rw [hok]
    simp only
    rw [hf]
    cases e <;> rfl
  · intro hp
    show (match parseS inner data p with
      | .thrown e => ParseOutcome.thrown e
      | .fail iss => .fail iss
      | .ok v => _) = _
    rw [hok]
    simp only
    rw [hp]

/-- C2 amended witness: `any().transform(<throws Error "boom">)` fails with a
`custom` issue carrying "boom"; `any().refine(<throws non-Error>)` propagates
the thrown value. -/
theorem claim_C2_amended_witness :
    parseS (.transform .any throwingF) (.str "x") []
      = .fail [{ path := [], message := "boom", code := "custom" }] ∧
    parseS (.refine .any throwingPredNE "bad") (.str "x") [] = .thrown .nonErr :=
  ⟨(claim_C2_amended .any throwingPredNE "bad" throwingF (.str "x") []
      (.str "x") (.errObj "boom") rfl).1 rfl,
   (claim_C2_amended .any throwingPredNE "bad" throwingF (.str "x") []
      (.str "x") .nonErr rfl).2 rfl⟩

/-- C7: the default combinator succeeds with exactly the fixed default on
`undefined` input — whatever the inner schema is, so no inner validation or
transform can run — and delegates to the inner schema on any other input. -/
theorem claim_C7 (inner : Schema) (dv : Value) (p : List PathSeg) :
    parseS (.default inner dv) .undef p = .ok dv ∧
    ∀ x, x ≠ .undef → parseS (.default inner dv) x p = parseS inner x p := by
  refine ⟨rfl, fun x hx => ?_⟩
  cases x with
  | undef => exact absurd rfl hx
  | null => rfl
  | bool b => rfl
  | nan => rfl
  | num j => rfl
  | str s => rfl
  | arr xs => rfl
  | obj fs => rfl

/-- C7 witness: `string().transform(parseInt).default(1)` yields `1` on
`undefined` without running the transform, and
`object({page: ...}).parse({})` returns `{page: 1}`. -/
theorem claim_C7_witness :
    parseS (.default pageInner (.num ⟨1, 0⟩)) .undef [.str "page"]
      = .ok (.num ⟨1, 0⟩) ∧
    parseS (.default pageInner (.num ⟨1, 0⟩)) (.str "5") []
      = parseS pageInner (.str "5") [] ∧
    parse pageSchema (.obj []) = .ok (.obj [("page", .num ⟨1, 0⟩)]) :=
  ⟨(claim_C7 pageInner (.num ⟨1, 0⟩) [.str "page"]).1,
   (claim_C7 pageInner (.num ⟨1, 0⟩) []).2 (.str "5")
     (fun h => Value.noConfusion h),
   rfl⟩

/-- C8 counterexample: `min` mutates the receiver and returns `this` (the same
reference), so the `_parse` behavior observed through the previously-returned
reference 0 changes: `"a"` parses successfully before `min(5)` and fails
`too_small` after. -/
theorem claim_C8_counterexample :
    parseStrRef (fun _ => {}) 0 (.str "a") = .ok (.str "a") ∧
    (stringMinH (fun _ => {}) 0 ⟨5, 0⟩).2 = 0 ∧
    parseStrRef (stringMinH (fun _ => {}) 0 ⟨5, 0⟩).1 0 (.str "a")
      = .fail [{ path := [], message :=
                   "String must contain at least 5 character(s)",
                 code := "too_small", received := some (.num ⟨1, 0⟩) }] :=
  ⟨rfl, rfl, rfl⟩

/-- C8 amended: `QeraStringSchema.min` and `QeraNumberSchema.min` mutate the
receiver's `_min` in place and return the *same* reference, so every
previously-returned reference to that object observes the added constraint;
schemas stored at any other reference are unaffected (the frame part of the
original claim that does hold). -/
theorem claim_C8_amended (h : StrHeap) (hn : NumHeap) (r : Nat) (len : JSNum) :
    (stringMinH h r len).2 = r ∧
    (stringMinH h r len).1 r = { h r with _min := some len } ∧
    (∀ r', r' ≠ r → (stringMinH h r len).1 r' = h r') ∧
    (numberMinH hn r len).2 = r ∧
    (numberMinH hn r len).1 r = { hn r with _min := some len } ∧
    (∀ r', r' ≠ r → (numberMinH hn r len).1 r' = hn r') :=
  ⟨rfl, by simp [stringMinH], fun r' hr => by simp [stringMinH, hr],
   rfl, by simp [numberMinH], fun r' hr => by simp [numberMinH, hr]⟩

/-- C8 amended witness: at references 0 and 1 of concrete heaps. -/
theorem claim_C8_amended_witness :
    (stringMinH (fun _ => {}) 0 ⟨5, 0⟩).2 = 0 ∧
    (stringMinH (fun _ => {}) 0 ⟨5, 0⟩).1 0
      = { (({} : StringConfig)) with _min := some ⟨5, 0⟩ } ∧
    (stringMinH (fun _ => {}) 0 ⟨5, 0⟩).1 1 = {} ∧
    (numberMinH (fun _ => {}) 0 ⟨5, 0⟩).1 1 = {} :=
  ⟨(claim_C8_amended (fun _ => {}) (fun _ => {}) 0 ⟨5, 0⟩).1,
   (claim_C8_amended (fun _ => {}) (fun _ => {}) 0 ⟨5, 0⟩).2.1,
   (claim_C8_amended (fun _ => {}) (fun _ => {}) 0 ⟨5, 0⟩).2.2.1 1
     (by exact Nat.one_ne_zero),
   (claim_C8_amended (fun _ => {}) (fun _ => {}) 0 ⟨5, 0⟩).2.2.2.2.2 1
     (by exact Nat.one_ne_zero)⟩

/-- When every remaining alternative fails, the loop ends in the single
synthetic `invalid_union` issue at the union's own path, whatever has been
accumulated so far. -/
theorem parseAlts_all_fail : ∀ (alts : Alts) (x : Value) (p : List PathSeg)
    (acc : List Issue),
    (∀ s ∈ alts.toList, isFail (parseS s x p) = true) →
    parseAlts alts x p acc
      = .fail [{ path := p, message := "Invalid input", code := "invalid_union" }]
  | .nil, _, _, _, _ => rfl
  | .cons a tl, x, p, acc, h => by
    have ha := h a (by simp [Alts.toList])
    rcases (isFail_iff _).mp ha with ⟨iss, hiss⟩
    show (match parseS a x p with
      | .ok v => ParseOutcome.ok v
      | .thrown e => .thrown e
      | .fail iss => parseAlts tl x p (acc ++ iss)) = _
    rw [hiss]
    exact parseAlts_all_fail tl x p (acc ++ iss)
      (fun s hs => h s (by simp [Alts.toList]; right; exact hs))

/-- When every alternative before `s` fails and `s` succeeds with `v`, the
loop returns `s`'s success. -/
theorem parseAlts_first_ok : ∀ (alts : Alts) (x : Value) (p : List PathSeg)
    (acc : List Issue) (l1 : List Schema) (s : Schema) (l2 : List Schema)
    (v : Value),
    alts.toList = l1 ++ s :: l2 →
    (∀ s' ∈ l1, isFail (parseS s' x p) = true) →
    parseS s x p = .ok v →
    parseAlts alts x p acc = .ok v
  | .nil, _, _, _, l1, _, _, _, hl, _, _ => by
    exact absurd hl (by simp [Alts.toList])
  | .cons a tl, x, p, acc, l1, s, l2, v, hl, hfail, hok => by
    show (match parseS a x p with
      | .ok v => ParseOutcome.ok v
      | .thrown e => .thrown e
      | .fail iss => parseAlts tl x p (acc ++ iss)) = _
    cases l1 with
    | nil =>
      have : a = s := by simpa [Alts.toList] using congrArg (fun l => l.headI) hl
      rw [this, hok]
    | cons b l1' =>
      have hab : a = b ∧ tl.toList = l1' ++ s :: l2 := by
        constructor
        · simpa [Alts.toList] using congrArg (fun l => l.headI) hl
        · have := congrArg List.tail hl
          simpa [Alts.toList] using this
      rcases hab with ⟨rfl, htl⟩
      have hb := hfail a (by simp)
      rcases (isFail_iff _).mp hb with ⟨iss, hiss⟩
      rw [hiss]
      exact parseAlts_first_ok tl x p (acc ++ iss) l1' s l2 v htl
        (fun s' hs => hfail s' (by simp [hs])) hok

/-- C3: the union tries its alternatives in declaration order and returns the
success of the first alternative that succeeds; when every alternative fails,
it returns exactly one synthetic `invalid_union` issue at the union's own
path and none of the per-alternative issues. -/
theorem claim_C3 (alts : Alts) (x : Value) (p : List PathSeg) :
    ((∀ s ∈ alts.toList, isFail (parseS s x p) = true) →
      parseS (.union alts) x p
        = .fail [{ path := p, message := "Invalid input",
                   code := "invalid_union" }]) ∧
    (∀ l1 s l2 v, alts.toList = l1 ++ s :: l2 →
      (∀ s' ∈ l1, isFail (parseS s' x p) = true) →
      parseS s x p = .ok v →
      parseS (.union alts) x p = .ok v) :=
  ⟨fun h => parseAlts_all_fail alts x p [] h,
   fun l1 s l2 v hl hfail hok =>
     parseAlts_first_ok alts x p [] l1 s l2 v hl hfail hok⟩

/-- C3 witness: `union(literal("a"), literal("b"))` rejects `"c"` with the
single `invalid_union` issue, and `union(string(), literal("x"))` on `"x"`,
which both alternatives accept, yields the first alternative's success. -/
theorem claim_C3_witness :
    parseS (.union (.cons (.literal (.s "a")) (.cons (.literal (.s "b")) .nil)))
        (.str "c") []
      = .fail [{ path := [], message := "Invalid input",
                 code := "invalid_union" }] ∧
    parseS (.union (.cons (.string {}) (.cons (.literal (.s "x")) .nil)))
        (.str "x") [] = .ok (.str "x") :=
  ⟨(claim_C3 (.cons (.literal (.s "a")) (.cons (.literal (.s "b")) .nil))
      (.str "c") []).1
    (by
      intro s hs
      simp [Alts.toList] at hs
      rcases hs with h | h <;> subst h <;> rfl),
   (claim_C3 (.cons (.string {}) (.cons (.literal (.s "x")) .nil))
      (.str "x") []).2 [] (.string {}) [.literal (.s "x")] (.str "x")
    (by simp [Alts.toList]) (by intro s hs; cases hs) rfl⟩

/-- A singleton-or-empty conditional is empty exactly when its condition is
false. -/
theorem ite_singleton_eq_nil (b : Bool) (c : String) :
    (if b = true then [c] else ([] : List String)) = [] ↔ b = false := by
  cases b <;> simp

/-- A guarded failure carries a nonempty issue list. -/
theorem fail_if_nonempty {l iss : List Issue} {v : Value}
    (h : (if l.length > 0 then ParseOutcome.fail l else .ok v) = .fail iss) :
    iss ≠ [] := by
  split at h
  · next hl => cases h; exact List.ne_nil_of_length_pos hl
  · exact ParseOutcome.noConfusion h

/-- The codes of the accumulated string issues: one per violated configured
constraint, in source order. -/
theorem stringIssues_codes (cfg : StringConfig) (s : String)
    (p : List PathSeg) :
    (stringIssues cfg s p).map Issue.code
      = (if strMinViolated cfg s then ["too_small"] else []) ++
        (if strMaxViolated cfg s then ["too_big"] else []) ++
        (if strPatternViolated cfg s then ["invalid_string"] else []) ++
        (if strEmailViolated cfg s then ["invalid_string"] else []) ++
        (if strUrlViolated cfg s then ["invalid_string"] else []) ++
        (if strUuidViolated cfg s then ["invalid_string"] else []) := by
  unfold stringIssues strMinViolated strMaxViolated strPatternViolated
    strEmailViolated strUrlViolated strUuidViolated
  cases cfg._min <;> cases cfg._max <;> cases cfg._pattern <;>
    simp [List.map_append, apply_ite (List.map Issue.code)]

/-- If every remaining alternative fails, the failed union's issue list is
exactly the one synthetic `invalid_union` issue. -/
theorem parseAlts_fail_shape : ∀ (alts : Alts) (x : Value) (p : List PathSeg)
    (acc iss : List Issue),
    parseAlts alts x p acc = .fail iss →
    iss = [{ path := p, message := "Invalid input", code := "invalid_union" }]
  | .nil, _, _, _, _, h => by cases h; rfl
  | .cons a tl, x, p, acc, iss, h => by
    revert h
    show (match parseS a x p with
      | .ok v => ParseOutcome.ok v
      | .thrown e => .thrown e
      | .fail iss2 => parseAlts tl x p (acc ++ iss2)) = _ → _
    cases parseS a x p with
    | ok v => exact fun h => ParseOutcome.noConfusion h
    | thrown e => exact fun h => ParseOutcome.noConfusion h
    | fail iss2 => exact fun h => parseAlts_fail_shape tl x p (acc ++ iss2) iss h

/-- Every returned failure carries at least one issue. -/
theorem issues_nonempty : ∀ (s : Schema) (x : Value) (p : List PathSeg)
    (iss : List Issue), parseS s x p = .fail iss → iss ≠ []
  | .string cfg, x, p, iss, h => by
    cases x with
    | str s => exact fail_if_nonempty h
    | undef => cases h; simp
    | null => cases h; simp
    | bool b => cases h; simp
    | nan => cases h; simp
    | num j => cases h; simp
    | arr xs => cases h; simp
    | obj fs => cases h; simp
  | .number cfg, x, p, iss, h => by
    cases x with
    | num j => exact fail_if_nonempty h
    | undef => cases h; simp
    | null => cases h; simp
    | bool b => cases h; simp
    | nan => cases h; simp
    | str s => cases h; simp
    | arr xs => cases h; simp
    | obj fs => cases h; simp
  | .boolean, x, p, iss, h => by
    cases x with
    | bool b => exact ParseOutcome.noConfusion h
    | undef => cases h; simp
    | null => cases h; simp
    | nan => cases h; simp
    | num j => cases h; simp
    | str s => cases h; simp
    | arr xs => cases h; simp
    | obj fs => cases h; simp
  | .array cfg element, x, p, iss, h => by
    cases x with
    | arr xs =>
      revert h
      show (match parseElems
          (fun i v => parseS element v (p ++ [.str (Nat.repr i)])) xs 0 with
        | .ethrown e => ParseOutcome.thrown e
        | .edone elemIss parsed =>
          let issues := arrayCardIssues cfg xs.length p ++ elemIss
          if issues.length > 0 then .fail issues else .ok (.arr parsed)) =
          .fail iss → iss ≠ []
      cases parseElems
          (fun i v => parseS element v (p ++ [.str (Nat.repr i)])) xs 0 with
      | ethrown e => exact fun h => ParseOutcome.noConfusion h
      | edone elemIss parsed => exact fun h => fail_if_nonempty h
    | undef => cases h; simp
    | null => cases h; simp
    | bool b => cases h; simp
    | nan => cases h; simp
    | num j => cases h; simp
    | str s => cases h; simp
    | obj fs => cases h; simp
  | .object strictFlag passthroughFlag shape, x, p, iss, h => by
    cases x with
    | obj fields =>
      revert h
      show (match parseFields shape fields p with
        | .fthrown e => ParseOutcome.thrown e
        | .fdone fieldIss asgs =>
          let init := if passthroughFlag then fields else []
          let parsedData := applyAssigns init asgs
          let strictIss :=
            if strictFlag then unknownKeyIssues (shapeKeys shape) fields p
            else []
          let issues := fieldIss ++ strictIss
          if issues.length > 0 then .fail issues
          else .ok (.obj parsedData)) = .fail iss → iss ≠ []
      cases parseFields shape fields p with
      | fthrown e => exact fun h => ParseOutcome.noConfusion h
      | fdone fieldIss asgs => exact fun h => fail_if_nonempty h
    | undef => cases h; simp
    | null => cases h; simp
    | bool b => cases h; simp
    | nan => cases h; simp
    | num j => cases h; simp
    | str s => cases h; simp
    | arr xs => cases h; simp
  | .union alts, x, p, iss, h => by
    rw [parseAlts_fail_shape alts x p [] iss h]; simp
  | .literal v, x, p, iss, h => by
    unfold parseS literalParse at h
    split at h
    · exact ParseOutcome.noConfusion h
    · cases h; simp
  | .enum values, x, p, iss, h => by
    unfold parseS enumParse at h
    dsimp only [] at h
    split at h
    · exact ParseOutcome.noConfusion h
    · cases h; simp
  | .optional inner, x, p, iss, h => by
    cases x with
    | undef => exact ParseOutcome.noConfusion h
    | null => exact issues_nonempty inner _ p iss h
    | bool b => exact issues_nonempty inner _ p iss h
    | nan => exact issues_nonempty inner _ p iss h
    | num j => exact issues_nonempty inner _ p iss h
    | str s => exact issues_nonempty inner _ p iss h
    | arr xs => exact issues_nonempty inner _ p iss h
    | obj fs => exact issues_nonempty inner _ p iss h
  | .nullable inner, x, p, iss, h => by
    cases x with
    | null => exact ParseOutcome.noConfusion h
    | undef => exact issues_nonempty inner _ p iss h
    | bool b => exact issues_nonempty inner _ p iss h
    | nan => exact issues_nonempty inner _ p iss h
    | num j => exact issues_nonempty inner _ p iss h
    | str s => exact issues_nonempty inner _ p iss h
    | arr xs => exact issues_nonempty inner _ p iss h
    | obj fs => exact issues_nonempty inner _ p iss h
  | .default inner dv, x, p, iss, h => by
    cases x with
    | undef => exact ParseOutcome.noConfusion h
    | null => exact issues_nonempty inner _ p iss h
    | bool b => exact issues_nonempty inner _ p iss h
    | nan => exact issues_nonempty inner _ p iss h
    | num j => exact issues_nonempty inner _ p iss h
    | str s => exact issues_nonempty inner _ p iss h
    | arr xs => exact issues_nonempty inner _ p iss h
    | obj fs => exact issues_nonempty inner _ p iss h
  | .refine inner pred msg, x, p, iss, h => by
    have hdef : parseS (.refine inner pred msg) x p =
        (match parseS inner x p with
          | .thrown e => ParseOutcome.thrown e
          | .fail iss2 => .fail iss2
          | .ok v =>
            match pred v with
            | .error e => .thrown e
            | .ok b =>
              if !b then
                .fail [{ path := p, message := msg, code := "custom" }]
              else .ok v) := rfl
    rw [hdef] at h
    split at h
    · exact ParseOutcome.noConfusion h
    · rename_i iss2 heq
      cases h
      exact issues_nonempty inner x p _ heq
    · split at h
      · exact ParseOutcome.noConfusion h
      · split at h
        · cases h; simp
        · exact ParseOutcome.noConfusion h
  | .transform inner f, x, p, iss, h => by
    have hdef : parseS (.transform inner f) x p =
        (match parseS inner x p with
          | .thrown e => ParseOutcome.thrown e
          | .fail iss2 => .fail iss2
          | .ok v =>
            match f v with
            | .ok u => .ok u
            | .error (.errObj m) =>
              .fail [{ path := p, message := m, code := "custom" }]
            | .error .nonErr =>
              .fail [{ path := p, message := "Transformation failed",
                       code := "custom" }]) := rfl
    rw [hdef] at h
    split at h
    · exact ParseOutcome.noConfusion h
    · rename_i iss2 heq
      cases h
      exact issues_nonempty inner x p _ heq
    · split at h
      · exact ParseOutcome.noConfusion h
      · cases h; simp
      · cases h; simp
  | .any, x, p, iss, h => ParseOutcome.noConfusion h
  | .unknown, x, p, iss, h => ParseOutcome.noConfusion h
  | .void, x, p, iss, h => by
    cases x with
    | undef => exact ParseOutcome.noConfusion h
    | null => cases h; simp
    | bool b => cases h; simp
    | nan => cases h; simp
    | num j => cases h; simp
    | str s => cases h; simp
    | arr xs => cases h; simp
    | obj fs => cases h; simp
  | .null, x, p, iss, h => by
    cases x with
    | null => exact ParseOutcome.noConfusion h
    | undef => cases h; simp
    | bool b => cases h; simp
    | nan => cases h; simp
    | num j => cases h; simp
    | str s => cases h; simp
    | arr xs => cases h; simp
    | obj fs => cases h; simp
  | .undefined, x, p, iss, h => by
    cases x with
    | undef => exact ParseOutcome.noConfusion h
    | null => cases h; simp
    | bool b => cases h; simp
    | nan => cases h; simp
    | num j => cases h; simp
    | str s => cases h; simp
    | arr xs => cases h; simp
    | obj fs => cases h; simp

/-- C4: a non-string input yields exactly one `invalid_type` issue with no
constraint issues; a string input yields, independently and without
short-circuiting, one issue per violated configured constraint (codes in
source order), and succeeds with the input itself exactly when no configured
constraint is violated. -/
theorem claim_C4 (cfg : StringConfig) (data : Value) (p : List PathSeg) :
    ((∀ s, data ≠ .str s) →
      ∃ i, parseS (.string cfg) data p = .fail [i] ∧
        i.code = "invalid_type" ∧ i.path = p) ∧
    (∀ s, data = .str s →
      ((issuesOf (parseS (.string cfg) data p)).map Issue.code
          = (if strMinViolated cfg s then ["too_small"] else []) ++
            (if strMaxViolated cfg s then ["too_big"] else []) ++
            (if strPatternViolated cfg s then ["invalid_string"] else []) ++
            (if strEmailViolated cfg s then ["invalid_string"] else []) ++
            (if strUrlViolated cfg s then ["invalid_string"] else []) ++
            (if strUuidViolated cfg s then ["invalid_string"] else [])) ∧
      (parseS (.string cfg) data p = .ok (.str s) ↔
        strMinViolated cfg s = false ∧ strMaxViolated cfg s = false ∧
        strPatternViolated cfg s = false ∧ strEmailViolated cfg s = false ∧
        strUrlViolated cfg s = false ∧ strUuidViolated cfg s = false)) := by
  constructor
  · intro hns
    cases data with
    | str s => exact absurd rfl (hns s)
    | undef => exact ⟨_, rfl, rfl, rfl⟩
    | null => exact ⟨_, rfl, rfl, rfl⟩
    | bool b => exact ⟨_, rfl, rfl, rfl⟩
    | nan => exact ⟨_, rfl, rfl, rfl⟩
    | num j => exact ⟨_, rfl, rfl, rfl⟩
    | arr xs => exact ⟨_, rfl, rfl, rfl⟩
    | obj fs => exact ⟨_, rfl, rfl, rfl⟩
  · rintro s rfl
    have hcodes := stringIssues_codes cfg s p
    have hunf : parseS (.string cfg) (.str s) p =
        (if (stringIssues cfg s p).length > 0 then
          .fail (stringIssues cfg s p) else .ok (.str s)) := rfl
    have hiff : parseS (.string cfg) (.str s) p = .ok (.str s) ↔
        stringIssues cfg s p = [] := by
      rw [hunf]
      cases hsi : stringIssues cfg s p with
      | nil => simp
      | cons a tl => simp
    constructor
    · rw [hunf]
      split
      · simpa [issuesOf] using hcodes
      · rename_i hl
        have hnil : stringIssues cfg s p = [] := by
          cases hsi : stringIssues cfg s p with
          | nil => rfl
          | cons a tl => rw [hsi] at hl; simp at hl
        rw [← hcodes, hnil]
        simp [issuesOf]
    · rw [hiff, ← List.map_eq_nil_iff (f := Issue.code), hcodes]
      simp only [List.append_eq_nil, ite_singleton_eq_nil]
      tauto

/-- C4 witness: `string().min(2).email()` on `"a"` reports both violations
(no short-circuit); on `"a@b.co"` it succeeds; a numeric input gets the single
`invalid_type` issue. -/
theorem claim_C4_witness :
    (issuesOf (parseS (.string { _min := some ⟨2, 0⟩, _email := true })
        (.str "a") [])).map Issue.code = ["too_small", "invalid_string"] ∧
    parseS (.string { _min := some ⟨2, 0⟩, _email := true })
        (.str "a@b.co") [] = .ok (.str "a@b.co") ∧
    (issuesOf (parseS (.string { _min := some ⟨2, 0⟩, _email := true })
        (.num ⟨1, 0⟩) [])).map Issue.code = ["invalid_type"] := by
  refine ⟨?_, ?_, ?_⟩
  · exact (((claim_C4 { _min := some ⟨2, 0⟩, _email := true } (.str "a") []).2
      "a" rfl).1).trans (by decide)
  · exact ((claim_C4 { _min := some ⟨2, 0⟩, _email := true }
      (.str "a@b.co") []).2 "a@b.co" rfl).2.mpr (by decide)
  · obtain ⟨i, hi, hc, hp⟩ :=
      (claim_C4 { _min := some ⟨2, 0⟩, _email := true } (.num ⟨1, 0⟩) []).1
        (fun s h => Value.noConfusion h)
    rw [hi]
    simp [issuesOf, hc]

/-- A guarded result's issues are the guarded list itself. -/
theorem issuesOf_guard (l : List Issue) (v : Value) :
    issuesOf (if l.length > 0 then ParseOutcome.fail l else .ok v) = l := by
  cases l <;> simp [issuesOf]

/-- A guarded result fails exactly when the guarded list is nonempty. -/
theorem isFail_guard (l : List Issue) (v : Value) :
    isFail (if l.length > 0 then ParseOutcome.fail l else .ok v) = true ↔
      l ≠ [] := by
  cases l <;> simp [isFail]

/-- When no per-index parse throws, the element loop finishes, and its
collected issues are the per-index issue lists joined in index order. -/
theorem parseElems_spec (f : Nat → Value → ParseOutcome) :
    ∀ (xs : List Value) (i0 : Nat),
    (∀ k, k < xs.length → isThrown (f (i0 + k) (xs.getD k .undef)) = false) →
    ∃ parsed, parseElems f xs i0 = .edone
      (((List.range xs.length).map fun k =>
        issuesOf (f (i0 + k) (xs.getD k .undef))).flatten) parsed := by
  intro xs
  induction xs with
  | nil => intro i0 _; exact ⟨[], by simp [parseElems]⟩
  | cons v tl ih =>
    intro i0 h
    have h0 : isThrown (f i0 v) = false := by
      have := h 0 (by simp)
      simpa using this
    have htl : ∀ k, k < tl.length →
        isThrown (f ((i0 + 1) + k) (tl.getD k .undef)) = false := by
      intro k hk
      have := h (k + 1) (by simp; omega)
      have harith : i0 + (k + 1) = (i0 + 1) + k := by omega
      simpa [harith] using this
    obtain ⟨ps, hps⟩ := ih (i0 + 1) htl
    have hjoin : ((List.range (v :: tl).length).map fun k =>
        issuesOf (f (i0 + k) ((v :: tl).getD k .undef))).flatten
        = issuesOf (f i0 v) ++
          ((List.range tl.length).map fun k =>
            issuesOf (f ((i0 + 1) + k) (tl.getD k .undef))).flatten := by
      rw [List.length_cons, List.range_succ_eq_map]
      simp only [List.map_cons, List.flatten_cons, List.map_map]
      have htail : List.map ((fun k =>
            issuesOf (f (i0 + k) ((v :: tl).getD k Value.undef))) ∘ Nat.succ)
            (List.range tl.length)
          = List.map (fun k => issuesOf (f ((i0 + 1) + k)
              (tl.getD k Value.undef))) (List.range tl.length) := by
        apply List.map_congr_left
        intro k _
        have harith : i0 + (k + 1) = (i0 + 1) + k := by omega
        simp [Function.comp, harith, List.getD_cons_succ]
      rw [htail]
      simp
    cases hf : f i0 v with
    | thrown e => rw [hf] at h0; simp [isThrown] at h0
    | fail iss1 =>
      refine ⟨ps, ?_⟩
      show (match f i0 v with
        | .thrown e => ElemsRes.ethrown e
        | .fail iss =>
          match parseElems f tl (i0 + 1) with
          | .ethrown e => ElemsRes.ethrown e
          | .edone iss2 ps2 => .edone (iss ++ iss2) ps2
        | .ok pv =>
          match parseElems f tl (i0 + 1) with
          | .ethrown e => ElemsRes.ethrown e
          | .edone iss2 ps2 => .edone iss2 (pv :: ps2)) = _
      rw [hf, hps, hjoin, hf]
      simp [issuesOf]
    | ok pv =>
      refine ⟨pv :: ps, ?_⟩
      show (match f i0 v with
        | .thrown e => ElemsRes.ethrown e
        | .fail iss =>
          match parseElems f tl (i0 + 1) with
          | .ethrown e => ElemsRes.ethrown e
          | .edone iss2 ps2 => .edone (iss ++ iss2) ps2
        | .ok pv =>
          match parseElems f tl (i0 + 1) with
          | .ethrown e => ElemsRes.ethrown e
          | .edone iss2 ps2 => .edone iss2 (pv :: ps2)) = _
      rw [hf, hps, hjoin, hf]
      simp [issuesOf]

/-- Each index whose issue list is nonempty contributes at least one issue to
the join. -/
theorem count_le_join (g : Nat → List Issue) (fk : Nat → Bool) :
    ∀ ks : List Nat, (∀ k ∈ ks, fk k = true → g k ≠ []) →
    (ks.filter fk).length ≤ ((ks.map g).flatten).length := by
  intro ks
  induction ks with
  | nil => intro _; simp
  | cons k ks' ih =>
    intro h
    have hrest := ih fun k' hk' => h k' (by simp [hk'])
    cases hfk : fk k with
    | true =>
      have hne := h k (by simp) hfk
      have h1 : 1 ≤ (g k).length := by
        cases hgk : g k with
        | nil => exact absurd hgk hne
        | cons a tl => simp
      have hfil : List.filter fk (k :: ks') = k :: List.filter fk ks' := by
        simp [List.filter_cons, hfk]
      rw [hfil, List.map_cons, List.flatten_cons, List.length_append,
        List.length_cons]
      omega
    | false =>
      have hfil : List.filter fk (k :: ks') = List.filter fk ks' := by
        simp [List.filter_cons, hfk]
      rw [hfil, List.map_cons, List.flatten_cons, List.length_append]
      omega

/-- C5: when no element parse throws, the array's issues are the cardinality
issues followed by every element's issues concatenated in index order (each
element parsed at the path extended by the decimal index) — validation never
stops at the first invalid element, so the number of failing elements bounds
the issue count from below — and the array fails exactly when that full
concatenation is nonempty. -/
theorem claim_C5 (cfg : ArrayConfig) (element : Schema) (xs : List Value)
    (p : List PathSeg)
    (hnt : ∀ k, k < xs.length →
      isThrown (parseS element (xs.getD k .undef)
        (p ++ [.str (Nat.repr k)])) = false) :
    (issuesOf (parseS (.array cfg element) (.arr xs) p)
      = arrayCardIssues cfg xs.length p ++
        ((List.range xs.length).map fun k =>
          issuesOf (parseS element (xs.getD k .undef)
            (p ++ [.str (Nat.repr k)]))).flatten) ∧
    ((List.range xs.length).filter fun k =>
        isFail (parseS element (xs.getD k .undef)
          (p ++ [.str (Nat.repr k)]))).length
      ≤ (issuesOf (parseS (.array cfg element) (.arr xs) p)).length ∧
    (isFail (parseS (.array cfg element) (.arr xs) p) = true ↔
      arrayCardIssues cfg xs.length p ++
        ((List.range xs.length).map fun k =>
          issuesOf (parseS element (xs.getD k .undef)
            (p ++ [.str (Nat.repr k)]))).flatten ≠ []) := by
  obtain ⟨parsed, hpe⟩ := parseElems_spec
    (fun i v => parseS element v (p ++ [.str (Nat.repr i)])) xs 0
    (by intro k hk; simpa using hnt k hk)
  have hunf : parseS (.array cfg element) (.arr xs) p =
      (match parseElems
          (fun i v => parseS element v (p ++ [.str (Nat.repr i)])) xs 0 with
        | .ethrown e => ParseOutcome.thrown e
        | .edone elemIss parsed2 =>
          if (arrayCardIssues cfg xs.length p ++ elemIss).length > 0 then
            .fail (arrayCardIssues cfg xs.length p ++ elemIss)
          else .ok (.arr parsed2)) := rfl
  rw [hunf, hpe]
  have hfix : ((List.range xs.length).map fun k =>
      issuesOf (parseS element (xs.getD k .undef)
        (p ++ [.str (Nat.repr (0 + k))]))).flatten
      = ((List.range xs.length).map fun k =>
        issuesOf (parseS element (xs.getD k .undef)
          (p ++ [.str (Nat.repr k)]))).flatten := by
    apply congrArg List.flatten
    apply List.map_congr_left
    intro k _
    simp
  refine ⟨?_, ?_, ?_⟩
  · rw [issuesOf_guard, hfix]
  · rw [issuesOf_guard, hfix]
    have hc := count_le_join
      (fun k => issuesOf (parseS element (xs.getD k .undef)
        (p ++ [.str (Nat.repr k)])))
      (fun k => isFail (parseS element (xs.getD k .undef)
        (p ++ [.str (Nat.repr k)])))
      (List.range xs.length)
      (by
        intro k hk hfk
        rcases (isFail_iff _).mp hfk with ⟨iss, hiss⟩
        show issuesOf (parseS element (xs.getD k .undef)
          (p ++ [.str (Nat.repr k)])) ≠ []
        rw [hiss]
        simpa [issuesOf] using issues_nonempty element _ _ iss hiss)
    rw [List.length_append]
    omega
  · rw [isFail_guard, hfix]

/-- C5 witness: `array(string()).min(4)` over `[1, "ok", true]` reports the
cardinality issue plus one issue per invalid element (two of the three). -/
theorem claim_C5_witness :
    (issuesOf (parseS (.array { _min := some ⟨4, 0⟩ } (.string {}))
        (.arr c5Vals) [])
      = arrayCardIssues { _min := some ⟨4, 0⟩ } c5Vals.length [] ++
        ((List.range c5Vals.length).map fun k =>
          issuesOf (parseS (.string {}) (c5Vals.getD k .undef)
            ([] ++ [.str (Nat.repr k)]))).flatten) ∧
    ((List.range c5Vals.length).filter fun k =>
        isFail (parseS (.string {}) (c5Vals.getD k .undef)
          ([] ++ [.str (Nat.repr k)]))).length
      ≤ (issuesOf (parseS (.array { _min := some ⟨4, 0⟩ } (.string {}))
          (.arr c5Vals) [])).length :=
  ⟨(claim_C5 { _min := some ⟨4, 0⟩ } (.string {}) c5Vals [] (by decide)).1,
   (claim_C5 { _min := some ⟨4, 0⟩ } (.string {}) c5Vals [] (by decide)).2.1⟩

/-- Membership in a singleton failure pins the issue down. -/
theorem mem_issuesOf_fail_singleton {i r : Issue}
    (h : i ∈ issuesOf (ParseOutcome.fail [r])) : i = r := by
  simpa [issuesOf] using h

/-- A success carries no issues. -/
theorem not_mem_issuesOf_ok {i : Issue} {v : Value}
    (h : i ∈ issuesOf (ParseOutcome.ok v)) : False := by
  simp [issuesOf] at h

/-- Every string-constraint issue sits at the schema's own path. -/
theorem stringIssues_paths (cfg : StringConfig) (s : String)
    (p : List PathSeg) : ∀ i ∈ stringIssues cfg s p, i.path = p := by
  intro i hi
  unfold stringIssues at hi
  simp only [List.mem_append] at hi
  rcases hi with ((((hi | hi) | hi) | hi) | hi) | hi
  · cases hm : cfg._min with
    | none => rw [hm] at hi; simp at hi
    | some m =>
      rw [hm] at hi
      dsimp only [] at hi
      split at hi
      · simp at hi; rw [hi]
      · simp at hi
  · cases hm : cfg._max with
    | none => rw [hm] at hi; simp at hi
    | some m =>
      rw [hm] at hi
      dsimp only [] at hi
      split at hi
      · simp at hi; rw [hi]
      · simp at hi
  · cases hm : cfg._pattern with
    | none => rw [hm] at hi; simp at hi
    | some test =>
      rw [hm] at hi
      dsimp only [] at hi
      split at hi
      · simp at hi; rw [hi]
      · simp at hi
  · split at hi
    · simp at hi; rw [hi]
    · simp at hi
  · split at hi
    · simp at hi; rw [hi]
    · simp at hi
  · split at hi
    · simp at hi; rw [hi]
    · simp at hi

/-- Every number-constraint issue sits at the schema's own path. -/
theorem numberIssues_paths (cfg : NumberConfig) (j : JSNum)
    (p : List PathSeg) : ∀ i ∈ numberIssues cfg j p, i.path = p := by
  intro i hi
  unfold numberIssues at hi
  simp only [List.mem_append] at hi
  rcases hi with ((((hi | hi) | hi) | hi) | hi) | hi
  · split at hi
    · simp at hi; rw [hi]
    · simp at hi
  · cases hm : cfg._min with
    | none => rw [hm] at hi; simp at hi
    | some m =>
      rw [hm] at hi
      dsimp only [] at hi
      split at hi
      · simp at hi; rw [hi]
      · simp at hi
  · cases hm : cfg._max with
    | none => rw [hm] at hi; simp at hi
    | some m =>
      rw [hm] at hi
      dsimp only [] at hi
      split at hi
      · simp at hi; rw [hi]
      · simp at hi
  · split at hi
    · simp at hi; rw [hi]
    · simp at hi
  · split at hi
    · simp at hi; rw [hi]
    · simp at hi
  · split at hi
    · simp at hi; rw [hi]
    · simp at hi

/-- Every array-cardinality issue sits at the array's own path. -/
theorem arrayCardIssues_paths (cfg : ArrayConfig) (len : Nat)
    (p : List PathSeg) : ∀ i ∈ arrayCardIssues cfg len p, i.path = p := by
  intro i hi
  unfold arrayCardIssues at hi
  simp only [List.mem_append] at hi
  rcases hi with hi | hi
  · cases hm : cfg._min with
    | none => rw [hm] at hi; simp at hi
    | some m =>
      rw [hm] at hi
      dsimp only [] at hi
      split at hi
      · simp at hi; rw [hi]
      · simp at hi
  · cases hm : cfg._max with
    | none => rw [hm] at hi; simp at hi
    | some m =>
      rw [hm] at hi
      dsimp only [] at hi
      split at hi
      · simp at hi; rw [hi]
      · simp at hi

/-- Every `unrecognized_keys` issue sits at the object's path extended by the
offending string key. -/
theorem unknownKeyIssues_paths (ks : List String)
    (fields : List (String × Value)) (p : List PathSeg) :
    ∀ i ∈ unknownKeyIssues ks fields p, ∃ k, i.path = p ++ [.str k] := by
  intro i hi
  unfold unknownKeyIssues at hi
  simp only [List.mem_filterMap] at hi
  obtain ⟨kv, hmem, hif⟩ := hi
  split at hif
  · exact Option.noConfusion hif
  · exact ⟨kv.1, by cases hif; rfl⟩

/-- Every issue collected by the element loop belongs to some in-range
element's parse at that element's index. -/
theorem parseElems_mem_issues (f : Nat → Value → ParseOutcome) :
    ∀ (xs : List Value) (i0 : Nat) (iss : List Issue) (ps : List Value),
      parseElems f xs i0 = .edone iss ps →
      ∀ i ∈ iss, ∃ k, k < xs.length ∧
        i ∈ issuesOf (f (i0 + k) (xs.getD k .undef)) := by
  intro xs
  induction xs with
  | nil => intro i0 iss ps h i hi; cases h; simp at hi
  | cons v tl ih =>
    intro i0 iss ps h i hi
    have hdef : parseElems f (v :: tl) i0 = (match f i0 v with
      | .thrown e => ElemsRes.ethrown e
      | .fail iss1 =>
        match parseElems f tl (i0 + 1) with
        | .ethrown e => ElemsRes.ethrown e
        | .edone iss2 ps2 => .edone (iss1 ++ iss2) ps2
      | .ok pv =>
        match parseElems f tl (i0 + 1) with
        | .ethrown e => ElemsRes.ethrown e
        | .edone iss2 ps2 => .edone iss2 (pv :: ps2)) := rfl
    rw [hdef] at h
    split at h
    · exact ElemsRes.noConfusion h
    · rename_i iss1 hf1
      split at h
      · exact ElemsRes.noConfusion h
      · rename_i iss2 ps2 hrec
        cases h
        rcases List.mem_append.mp hi with hm | hm
        · exact ⟨0, by simp, by simpa [hf1, issuesOf] using hm⟩
        · obtain ⟨k, hk, hmem⟩ := ih (i0 + 1) _ _ hrec i hm
          refine ⟨k + 1, by simpa using Nat.succ_lt_succ hk, ?_⟩
          have harith : i0 + (k + 1) = (i0 + 1) + k := by omega
          simpa [harith, List.getD_cons_succ] using hmem
    · rename_i pv hf1
      split at h
      · exact ElemsRes.noConfusion h
      · rename_i iss2 ps2 hrec
        cases h
        obtain ⟨k, hk, hmem⟩ := ih (i0 + 1) _ _ hrec i hi
        refine ⟨k + 1, by simpa using Nat.succ_lt_succ hk, ?_⟩
        have harith : i0 + (k + 1) = (i0 + 1) + k := by omega
        simpa [harith, List.getD_cons_succ] using hmem

mutual

/-- Whenever the entry path has only string segments, so does the path of
every emitted issue. -/
theorem parseS_paths_str : ∀ (s : Schema) (x : Value) (p : List PathSeg),
    (∀ seg ∈ p, PathSeg.isStr seg = true) →
    ∀ i ∈ issuesOf (parseS s x p), ∀ seg ∈ i.path, PathSeg.isStr seg = true
  | .string cfg, x, p, hp, i, hi, seg, hseg => by
    cases x with
    | str s =>
      have hi2 : i ∈ stringIssues cfg s p := by
        have h0 : i ∈ issuesOf (if (stringIssues cfg s p).length > 0 then
            ParseOutcome.fail (stringIssues cfg s p) else .ok (.str s)) := hi
        rwa [issuesOf_guard] at h0
      rw [stringIssues_paths cfg s p i hi2] at hseg
      exact hp seg hseg
    | undef => rw [mem_issuesOf_fail_singleton hi] at hseg; exact hp seg hseg
    | null => rw [mem_issuesOf_fail_singleton hi] at hseg; exact hp seg hseg
    | bool b => rw [mem_issuesOf_fail_singleton hi] at hseg; exact hp seg hseg
    | nan => rw [mem_issuesOf_fail_singleton hi] at hseg; exact hp seg hseg
    | num j => rw [mem_issuesOf_fail_singleton hi] at hseg; exact hp seg hseg
    | arr xs => rw [mem_issuesOf_fail_singleton hi] at hseg; exact hp seg hseg
    | obj fs => rw [mem_issuesOf_fail_singleton hi] at hseg; exact hp seg hseg
  | .number cfg, x, p, hp, i, hi, seg, hseg => by
    cases x with
    | num j =>
      have hi2 : i ∈ numberIssues cfg j p := by
        have h0 : i ∈ issuesOf (if (numberIssues cfg j p).length > 0 then
            ParseOutcome.fail (numberIssues cfg j p) else .ok (.num j)) := hi
        rwa [issuesOf_guard] at h0
      rw [numberIssues_paths cfg j p i hi2] at hseg
      exact hp seg hseg
    | undef => rw [mem_issuesOf_fail_singleton hi] at hseg; exact hp seg hseg
    | null => rw [mem_issuesOf_fail_singleton hi] at hseg; exact hp seg hseg
    | bool b => rw [mem_issuesOf_fail_singleton hi] at hseg; exact hp seg hseg
    | nan => rw [mem_issuesOf_fail_singleton hi] at hseg; exact hp seg hseg
    | str s => rw [mem_issuesOf_fail_singleton hi] at hseg; exact hp seg hseg
    | arr xs => rw [mem_issuesOf_fail_singleton hi] at hseg; exact hp seg hseg
    | obj fs => rw [mem_issuesOf_fail_singleton hi] at hseg; exact hp seg hseg
  | .boolean, x, p, hp, i, hi, seg, hseg => by
    cases x with
    | bool b => exact (not_mem_issuesOf_ok hi).elim
    | undef => rw [mem_issuesOf_fail_singleton hi] at hseg; exact hp seg hseg
    | null => rw [mem_issuesOf_fail_singleton hi] at hseg; exact hp seg hseg
    | nan => rw [mem_issuesOf_fail_singleton hi] at hseg; exact hp seg hseg
    | num j => rw [mem_issuesOf_fail_singleton hi] at hseg; exact hp seg hseg
    | str s => rw [mem_issuesOf_fail_singleton hi] at hseg; exact hp seg hseg
    | arr xs => rw [mem_issuesOf_fail_singleton hi] at hseg; exact hp seg hseg
    | obj fs => rw [mem_issuesOf_fail_singleton hi] at hseg; exact hp seg hseg
  | .array cfg element, x, p, hp, i, hi, seg, hseg => by
    cases x with
    | arr xs =>
      have hi2 : i ∈ issuesOf (match parseElems
          (fun i v => parseS element v (p ++ [.str (Nat.repr i)])) xs 0 with
        | .ethrown e => ParseOutcome.thrown e
        | .edone elemIss parsed =>
          if (arrayCardIssues cfg xs.length p ++ elemIss).length > 0 then
            .fail (arrayCardIssues cfg xs.length p ++ elemIss)
          else .ok (.arr parsed)) := hi
      split at hi2
      · simp [issuesOf] at hi2
      · rename_i elemIss parsed heq
        rw [issuesOf_guard] at hi2
        rcases List.mem_append.mp hi2 with hm | hm
        · rw [arrayCardIssues_paths cfg xs.length p i hm] at hseg
          exact hp seg hseg
        · obtain ⟨k, hk, hmem⟩ :=
            parseElems_mem_issues _ xs 0 elemIss parsed heq i hm
          have hmem2 : i ∈ issuesOf (parseS element (xs.getD k .undef)
              (p ++ [.str (Nat.repr k)])) := by simpa using hmem
          have hp2 : ∀ seg2 ∈ p ++ [PathSeg.str (Nat.repr k)],
              PathSeg.isStr seg2 = true := by
            intro seg2 hs2
            rcases List.mem_append.mp hs2 with h2 | h2
            · exact hp seg2 h2
            · simp at h2; rw [h2]; rfl
          exact parseS_paths_str element (xs.getD k .undef)
            (p ++ [.str (Nat.repr k)]) hp2 i hmem2 seg hseg
    | undef => rw [mem_issuesOf_fail_singleton hi] at hseg; exact hp seg hseg
    | null => rw [mem_issuesOf_fail_singleton hi] at hseg; exact hp seg hseg
    | bool b => rw [mem_issuesOf_fail_singleton hi] at hseg; exact hp seg hseg
    | nan => rw [mem_issuesOf_fail_singleton hi] at hseg; exact hp seg hseg
    | num j => rw [mem_issuesOf_fail_singleton hi] at hseg; exact hp seg hseg
    | str s => rw [mem_issuesOf_fail_singleton hi] at hseg; exact hp seg hseg
    | obj fs => rw [mem_issuesOf_fail_singleton hi] at hseg; exact hp seg hseg
  | .object strictFlag passthroughFlag shape, x, p, hp, i, hi, seg, hseg => by
    cases x with
    | obj fields =>
      have hi2 : i ∈ issuesOf (match parseFields shape fields p with
        | .fthrown e => ParseOutcome.thrown e
        | .fdone fieldIss asgs =>
          if (fieldIss ++ (if strictFlag then
              unknownKeyIssues (shapeKeys shape) fields p else [])).length > 0
          then .fail (fieldIss ++ (if strictFlag then
              unknownKeyIssues (shapeKeys shape) fields p else []))
          else .ok (.obj (applyAssigns
            (if passthroughFlag then fields else []) asgs))) := hi
      split at hi2
      · simp [issuesOf] at hi2
      · rename_i fieldIss asgs heq
        rw [issuesOf_guard] at hi2
        rcases List.mem_append.mp hi2 with hm | hm
        · exact parseFields_paths_str shape fields p hp fieldIss asgs heq
            i hm seg hseg
        · split at hm
          · obtain ⟨k, hpath⟩ :=
              unknownKeyIssues_paths (shapeKeys shape) fields p i hm
            rw [hpath] at hseg
            rcases List.mem_append.mp hseg with h2 | h2
            · exact hp seg h2
            · simp at h2; rw [h2]; rfl
          · simp at hm
    | undef => rw [mem_issuesOf_fail_singleton hi] at hseg; exact hp seg hseg
    | null => rw [mem_issuesOf_fail_singleton hi] at hseg; exact hp seg hseg
    | bool b => rw [mem_issuesOf_fail_singleton hi] at hseg; exact hp seg hseg
    | nan => rw [mem_issuesOf_fail_singleton hi] at hseg; exact hp seg hseg
    | num j => rw [mem_issuesOf_fail_singleton hi] at hseg; exact hp seg hseg
    | str s => rw [mem_issuesOf_fail_singleton hi] at hseg; exact hp seg hseg
    | arr xs => rw [mem_issuesOf_fail_singleton hi] at hseg; exact hp seg hseg
  | .union alts, x, p, hp, i, hi, seg, hseg => by
    have hi2 : i ∈ issuesOf (parseAlts alts x p []) := hi
    cases ho : parseAlts alts x p [] with
    | ok v => rw [ho] at hi2; exact (not_mem_issuesOf_ok hi2).elim
    | thrown e => rw [ho] at hi2; simp [issuesOf] at hi2
    | fail iss2 =>
      rw [ho] at hi2
      rw [parseAlts_fail_shape alts x p [] iss2 ho] at hi2
      rw [mem_issuesOf_fail_singleton hi2] at hseg
      exact hp seg hseg
  | .literal v, x, p, hp, i, hi, seg, hseg => by
    have hi2 := hi
    unfold parseS literalParse at hi2
    split at hi2
    · exact (not_mem_issuesOf_ok hi2).elim
    · rw [mem_issuesOf_fail_singleton hi2] at hseg; exact hp seg hseg
  | .enum values, x, p, hp, i, hi, seg, hseg => by
    have hi2 := hi
    unfold parseS enumParse at hi2
    dsimp only [] at hi2
    split at hi2
    · exact (not_mem_issuesOf_ok hi2).elim
    · rw [mem_issuesOf_fail_singleton hi2] at hseg; exact hp seg hseg
  | .optional inner, x, p, hp, i, hi, seg, hseg => by
    cases x with
    | undef => exact (not_mem_issuesOf_ok hi).elim
    | null => exact parseS_paths_str inner _ p hp i hi seg hseg
    | bool b => exact parseS_paths_str inner _ p hp i hi seg hseg
    | nan => exact parseS_paths_str inner _ p hp i hi seg hseg
    | num j => exact parseS_paths_str inner _ p hp i hi seg hseg
    | str s => exact parseS_paths_str inner _ p hp i hi seg hseg
    | arr xs => exact parseS_paths_str inner _ p hp i hi seg hseg
    | obj fs => exact parseS_paths_str inner _ p hp i hi seg hseg
  | .nullable inner, x, p, hp, i, hi, seg, hseg => by
    cases x with
    | null => exact (not_mem_issuesOf_ok hi).elim
    | undef => exact parseS_paths_str inner _ p hp i hi seg hseg
    | bool b => exact parseS_paths_str inner _ p hp i hi seg hseg
    | nan => exact parseS_paths_str inner _ p hp i hi seg hseg
    | num j => exact parseS_paths_str inner _ p hp i hi seg hseg
    | str s => exact parseS_paths_str inner _ p hp i hi seg hseg
    | arr xs => exact parseS_paths_str inner _ p hp i hi seg hseg
    | obj fs => exact parseS_paths_str inner _ p hp i hi seg hseg
  | .default inner dv, x, p, hp, i, hi, seg, hseg => by
    cases x with
    | undef => exact (not_mem_issuesOf_ok hi).elim
    | null => exact parseS_paths_str inner _ p hp i hi seg hseg
    | bool b => exact parseS_paths_str inner _ p hp i hi seg hseg
    | nan => exact parseS_paths_str inner _ p hp i hi seg hseg
    | num j => exact parseS_paths_str inner _ p hp i hi seg hseg
    | str s => exact parseS_paths_str inner _ p hp i hi seg hseg
    | arr xs => exact parseS_paths_str inner _ p hp i hi seg hseg
    | obj fs => exact parseS_paths_str inner _ p hp i hi seg hseg
  | .refine inner pred msg, x, p, hp, i, hi, seg, hseg => by
    have hi2 : i ∈ issuesOf (match parseS inner x p with
      | .thrown e => ParseOutcome.thrown e
      | .fail iss2 => .fail iss2
      | .ok v =>
        match pred v with
        | .error e => .thrown e
        | .ok b =>
          if !b then .fail [{ path := p, message := msg, code := "custom" }]
          else .ok v) := hi
    split at hi2
    · simp [issuesOf] at hi2
    · rename_i iss2 heq
      have hin : i ∈ issuesOf (parseS inner x p) := by rw [heq]; exact hi2
      exact parseS_paths_str inner x p hp i hin seg hseg
    · split at hi2
      · simp [issuesOf] at hi2
      · split at hi2
        · rw [mem_issuesOf_fail_singleton hi2] at hseg; exact hp seg hseg
        · exact (not_mem_issuesOf_ok hi2).elim
  | .transform inner f, x, p, hp, i, hi, seg, hseg => by
    have hi2 : i ∈ issuesOf (match parseS inner x p with
      | .thrown e => ParseOutcome.thrown e
      | .fail iss2 => .fail iss2
      | .ok v =>
        match f v with
        | .ok u => .ok u
        | .error (.errObj m) =>
          .fail [{ path := p, message := m, code := "custom" }]
        | .error .nonErr =>
          .fail [{ path := p, message := "Transformation failed",
                   code := "custom" }]) := hi
    split at hi2
    · simp [issuesOf] at hi2
    · rename_i iss2 heq
      have hin : i ∈ issuesOf (parseS inner x p) := by rw [heq]; exact hi2
      exact parseS_paths_str inner x p hp i hin seg hseg
    · split at hi2
      · exact (not_mem_issuesOf_ok hi2).elim
      · rw [mem_issuesOf_fail_singleton hi2] at hseg; exact hp seg hseg
      · rw [mem_issuesOf_fail_singleton hi2] at hseg; exact hp seg hseg
  | .any, x, p, hp, i, hi, seg, hseg => (not_mem_issuesOf_ok hi).elim
  | .unknown, x, p, hp, i, hi, seg, hseg => (not_mem_issuesOf_ok hi).elim
  | .void, x, p, hp, i, hi, seg, hseg => by
    cases x with
    | undef => exact (not_mem_issuesOf_ok hi).elim
    | null => rw [mem_issuesOf_fail_singleton hi] at hseg; exact hp seg hseg
    | bool b => rw [mem_issuesOf_fail_singleton hi] at hseg; exact hp seg hseg
    | nan => rw [mem_issuesOf_fail_singleton hi] at hseg; exact hp seg hseg
    | num j => rw [mem_issuesOf_fail_singleton hi] at hseg; exact hp seg hseg
    | str s => rw [mem_issuesOf_fail_singleton hi] at hseg; exact hp seg hseg
    | arr xs => rw [mem_issuesOf_fail_singleton hi] at hseg; exact hp seg hseg
    | obj fs => rw [mem_issuesOf_fail_singleton hi] at hseg; exact hp seg hseg
  | .null, x, p, hp, i, hi, seg, hseg => by
    cases x with
    | null => exact (not_mem_issuesOf_ok hi).elim
    | undef => rw [mem_issuesOf_fail_singleton hi] at hseg; exact hp seg hseg
    | bool b => rw [mem_issuesOf_fail_singleton hi] at hseg; exact hp seg hseg
    | nan => rw [mem_issuesOf_fail_singleton hi] at hseg; exact hp seg hseg
    | num j => rw [mem_issuesOf_fail_singleton hi] at hseg; exact hp seg hseg
    | str s => rw [mem_issuesOf_fail_singleton hi] at hseg; exact hp seg hseg
    | arr xs => rw [mem_issuesOf_fail_singleton hi] at hseg; exact hp seg hseg
    | obj fs => rw [mem_issuesOf_fail_singleton hi] at hseg; exact hp seg hseg
  | .undefined, x, p, hp, i, hi, seg, hseg => by
    cases x with
    | undef => exact (not_mem_issuesOf_ok hi).elim
    | null => rw [mem_issuesOf_fail_singleton hi] at hseg; exact hp seg hseg
    | bool b => rw [mem_issuesOf_fail_singleton hi] at hseg; exact hp seg hseg
    | nan => rw [mem_issuesOf_fail_singleton hi] at hseg; exact hp seg hseg
    | num j => rw [mem_issuesOf_fail_singleton hi] at hseg; exact hp seg hseg
    | str s => rw [mem_issuesOf_fail_singleton hi] at hseg; exact hp seg hseg
    | arr xs => rw [mem_issuesOf_fail_singleton hi] at hseg; exact hp seg hseg
    | obj fs => rw [mem_issuesOf_fail_singleton hi] at hseg; exact hp seg hseg

/-- Field-loop analogue of `parseS_paths_str`. -/
theorem parseFields_paths_str : ∀ (sh : Shape)
    (fields : List (String × Value)) (p : List PathSeg),
    (∀ seg ∈ p, PathSeg.isStr seg = true) →
    ∀ (iss : List Issue) (asgs : List (String × Value)),
    parseFields sh fields p = .fdone iss asgs →
    ∀ i ∈ iss, ∀ seg ∈ i.path, PathSeg.isStr seg = true
  | .nil, fields, p, hp, iss, asgs, h, i, hi, seg, hseg => by
    cases h; simp at hi
  | .cons key sch tl, fields, p, hp, iss, asgs, h, i, hi, seg, hseg => by
    have hext : ∀ seg2 ∈ p ++ [PathSeg.str key],
        PathSeg.isStr seg2 = true := by
      intro seg2 hs2
      rcases List.mem_append.mp hs2 with h2 | h2
      · exact hp seg2 h2
      · simp at h2; rw [h2]; rfl
    have hdef : parseFields (.cons key sch tl) fields p =
        (match parseS sch ((getField fields key).getD .undef)
            (p ++ [.str key]) with
          | .thrown e => FieldsRes.fthrown e
          | .fail iss1 =>
            match parseFields tl fields p with
            | .fthrown e => FieldsRes.fthrown e
            | .fdone iss2 asgs2 => .fdone (iss1 ++ iss2) asgs2
          | .ok v =>
            match parseFields tl fields p with
            | .fthrown e => FieldsRes.fthrown e
            | .fdone iss2 asgs2 => .fdone iss2 ((key, v) :: asgs2)) := rfl
    rw [hdef] at h
    split at h
    · exact FieldsRes.noConfusion h
    · rename_i iss1 heq1
      split at h
      · exact FieldsRes.noConfusion h
      · rename_i iss2 asgs2 heq2
        cases h
        rcases List.mem_append.mp hi with hm | hm
        · exact parseS_paths_str sch ((getField fields key).getD .undef)
            (p ++ [.str key]) hext i (by rw [heq1]; exact hm) seg hseg
        · exact parseFields_paths_str tl fields p hp _ _ heq2
            i hm seg hseg
    · rename_i v heq1
      split at h
      · exact FieldsRes.noConfusion h
      · rename_i iss2 asgs2 heq2
        cases h
        exact parseFields_paths_str tl fields p hp _ _ heq2
          i hi seg hseg

end

/-- C9: an issue path only ever extends the entry path with string segments —
object fields contribute their field-name string, arrays the decimal string
of the 0-based element index — so when parsing starts at the root (or any
all-string path), every emitted issue path consists of strings only, and an
array issue is either at the array's own path or belongs to the parse of a
specific in-range element at the decimal-index-extended path. -/
theorem claim_C9 :
    (∀ (s : Schema) (x : Value) (p : List PathSeg),
      (∀ seg ∈ p, PathSeg.isStr seg = true) →
      ∀ i ∈ issuesOf (parseS s x p), ∀ seg ∈ i.path,
        PathSeg.isStr seg = true) ∧
    (∀ (cfg : ArrayConfig) (element : Schema) (xs : List Value)
        (p : List PathSeg),
      ∀ i ∈ issuesOf (parseS (.array cfg element) (.arr xs) p),
        i.path = p ∨ ∃ k, k < xs.length ∧
          i ∈ issuesOf (parseS element (xs.getD k .undef)
            (p ++ [.str (Nat.repr k)]))) := by
  constructor
  · exact parseS_paths_str
  · intro cfg element xs p i hi
    have hi2 : i ∈ issuesOf (match parseElems
        (fun i v => parseS element v (p ++ [.str (Nat.repr i)])) xs 0 with
      | .ethrown e => ParseOutcome.thrown e
      | .edone elemIss parsed =>
        if (arrayCardIssues cfg xs.length p ++ elemIss).length > 0 then
          .fail (arrayCardIssues cfg xs.length p ++ elemIss)
        else .ok (.arr parsed)) := hi
    split at hi2
    · simp [issuesOf] at hi2
    · rename_i elemIss parsed heq
      rw [issuesOf_guard] at hi2
      rcases List.mem_append.mp hi2 with hm | hm
      · exact Or.inl (arrayCardIssues_paths cfg xs.length p i hm)
      · obtain ⟨k, hk, hmem⟩ :=
          parseElems_mem_issues _ xs 0 elemIss parsed heq i hm
        exact Or.inr ⟨k, hk, by simpa using hmem⟩

/-- C9 witness: every issue of a failing array-of-strings parse at the root
has an all-string path. -/
theorem claim_C9_witness :
    (issuesOf (parseS (.array {} (.string {})) (.arr [.bool true]) [])).all
      (fun i => i.path.all PathSeg.isStr) = true := by
  have h := claim_C9.1 (.array {} (.string {})) (.arr [.bool true]) []
    (by intro seg hs; cases hs)
  refine List.all_eq_true.mpr ?_
  intro i hi
  exact List.all_eq_true.mpr (fun seg hseg => h i hi seg hseg)

/-- When the field loop reports no issues, every declared field parsed
successfully: the assignments carry exactly the declared keys in declaration
order, and looking a declared field up in them yields its parsed value. -/
theorem parseFields_ok : ∀ (sh : Shape) (fields : List (String × Value))
    (p : List PathSeg) (asgs : List (String × Value)),
    parseFields sh fields p = .fdone [] asgs →
    asgs.map Prod.fst = shapeKeys sh ∧
    ∀ k sch, shapeLookup sh k = some sch →
      ∃ w, parseS sch ((getField fields k).getD .undef) (p ++ [.str k])
          = .ok w ∧ getField asgs k = some w
  | .nil, fields, p, asgs, h => by
    cases h
    exact ⟨rfl, fun k sch hk => Option.noConfusion hk⟩
  | .cons key sch0 tl, fields, p, asgs, h => by
    have hdef : parseFields (.cons key sch0 tl) fields p =
        (match parseS sch0 ((getField fields key).getD .undef)
            (p ++ [.str key]) with
          | .thrown e => FieldsRes.fthrown e
          | .fail iss1 =>
            match parseFields tl fields p with
            | .fthrown e => FieldsRes.fthrown e
            | .fdone iss2 asgs2 => .fdone (iss1 ++ iss2) asgs2
          | .ok v =>
            match parseFields tl fields p with
            | .fthrown e => FieldsRes.fthrown e
            | .fdone iss2 asgs2 => .fdone iss2 ((key, v) :: asgs2)) := rfl
    rw [hdef] at h
    split at h
    · exact FieldsRes.noConfusion h
    · rename_i iss1 heq1
      split at h
      · exact FieldsRes.noConfusion h
      · injection h with h1 h2
        have hne := issues_nonempty sch0 _ _ iss1 heq1
        simp only [List.append_eq_nil] at h1
        exact absurd h1.1 hne
    · rename_i v heq1
      split at h
      · exact FieldsRes.noConfusion h
      · rename_i iss2 asgs2 heq2
        injection h with h1 h2
        subst h1
        subst h2
        obtain ⟨hkeys, hlook⟩ := parseFields_ok tl fields p asgs2 heq2
        refine ⟨by simp [shapeKeys, hkeys], ?_⟩
        intro k sch hk
        rw [show shapeLookup (.cons key sch0 tl) k =
          (if key == k then some sch0 else shapeLookup tl k) from rfl] at hk
        split at hk
        · rename_i hbeq
          have hkeq : key = k := by simpa using hbeq
          cases hk
          subst hkeq
          exact ⟨v, heq1, by simp [getField]⟩
        · rename_i hbeq
          obtain ⟨w, hw1, hw2⟩ := hlook k sch hk
          refine ⟨w, hw1, ?_⟩
          rw [show getField ((key, v) :: asgs2) k =
            (if key == k then some v else getField asgs2 k) from rfl]
          rw [if_neg hbeq]
          exact hw2

/-- Assigning a fresh key appends it. -/
theorem setField_fresh (init : List (String × Value)) (k : String) (v : Value)
    (h : k ∉ init.map Prod.fst) : setField init k v = init ++ [(k, v)] := by
  induction init with
  | nil => rfl
  | cons kv tl ih =>
    obtain ⟨k1, w⟩ := kv
    simp only [List.map_cons, List.mem_cons] at h
    push_neg at h
    rw [show setField ((k1, w) :: tl) k v =
      (if k1 == k then (k, v) :: tl else (k1, w) :: setField tl k v) from rfl]
    have hne : ¬(k1 == k) = true := by
      simp only [beq_iff_eq]
      exact fun hh => h.1 hh.symm
    rw [if_neg hne, ih h.2]
    rfl

/-- Applying assignments with fresh, pairwise-distinct keys appends them in
order. -/
theorem applyAssigns_disjoint : ∀ (asgs init : List (String × Value)),
    (∀ k ∈ asgs.map Prod.fst, k ∉ init.map Prod.fst) →
    (asgs.map Prod.fst).Nodup →
    applyAssigns init asgs = init ++ asgs := by
  intro asgs
  induction asgs with
  | nil => intro init _ _; simp [applyAssigns]
  | cons kv tl ih =>
    intro init hdis hnd
    obtain ⟨k1, v1⟩ := kv
    have h1 : applyAssigns init ((k1, v1) :: tl) =
        applyAssigns (setField init k1 v1) tl := rfl
    rw [h1, setField_fresh init k1 v1 (hdis k1 (by simp))]
    have hnd2 : (tl.map Prod.fst).Nodup := by
      simp only [List.map_cons, List.nodup_cons] at hnd
      exact hnd.2
    have hk1 : k1 ∉ tl.map Prod.fst := by
      simp only [List.map_cons, List.nodup_cons] at hnd
      exact hnd.1
    rw [ih (init ++ [(k1, v1)])
      (by
        intro k hk
        simp only [List.map_append, List.mem_append, List.map_cons,
          List.mem_singleton, List.map_nil]
        push_neg
        constructor
        · exact hdis k (by simp [hk])
        · intro hcontra
          simp only [hcontra] at hk
          exact absurd hk hk1)
      hnd2]
    simp

/-- C10: a successful strip-mode object parse returns a fresh mapping whose
keys are exactly the declared keys in declaration order; each declared field
is present, mapped to its parsed value (in particular `undefined` for an
absent optional field), and no undeclared input key is present. -/
theorem claim_C10 (shape : Shape) (fields : List (String × Value))
    (p : List PathSeg) (v : Value)
    (hnd : (shapeKeys shape).Nodup)
    (hok : parseS (.object false false shape) (.obj fields) p = .ok v) :
    ∃ out, v = .obj out ∧ out.map Prod.fst = shapeKeys shape ∧
      ∀ k sch, shapeLookup shape k = some sch →
        ∃ w, parseS sch ((getField fields k).getD .undef) (p ++ [.str k])
            = .ok w ∧ getField out k = some w := by
  have hdef : parseS (.object false false shape) (.obj fields) p =
      (match parseFields shape fields p with
        | .fthrown e => ParseOutcome.thrown e
        | .fdone fieldIss asgs =>
          if (fieldIss ++ []).length > 0 then .fail (fieldIss ++ [])
          else .ok (.obj (applyAssigns [] asgs))) := rfl
  rw [hdef] at hok
  split at hok
  · exact ParseOutcome.noConfusion hok
  · rename_i fieldIss asgs heq
    split at hok
    · exact ParseOutcome.noConfusion hok
    · rename_i hguard
      cases hok
      have hnil : fieldIss = [] := by
        cases hfi : fieldIss with
        | nil => rfl
        | cons a tl => rw [hfi] at hguard; simp at hguard
      subst hnil
      obtain ⟨hkeys, hlook⟩ := parseFields_ok shape fields p asgs heq
      have hnd2 : (asgs.map Prod.fst).Nodup := by rw [hkeys]; exact hnd
      have happ : applyAssigns [] asgs = asgs := by
        simpa using applyAssigns_disjoint asgs [] (by simp) hnd2
      exact ⟨asgs, by rw [happ], hkeys, hlook⟩

/-- C10 witness: `object({a: string().optional()})` on `{}` succeeds with a
mapping whose only key is `a`, mapped to `undefined`. -/
theorem claim_C10_witness :
    (shapeKeys c10Shape).Nodup ∧
    parseS (.object false false c10Shape) (.obj []) []
      = .ok (.obj [("a", .undef)]) ∧
    getField [("a", Value.undef)] "a" = some Value.undef := by
  refine ⟨by simp [c10Shape, shapeKeys], rfl, ?_⟩
  obtain ⟨out, hv, hkeys, hlook⟩ := claim_C10 c10Shape [] []
    (.obj [("a", .undef)]) (by simp [c10Shape, shapeKeys]) rfl
  obtain ⟨w, hw1, hw2⟩ := hlook "a" (.optional (.string {})) rfl
  have hout : out = [("a", Value.undef)] := by
    injection hv with h
    exact h.symm
  have hwu : w = Value.undef := by
    injection hw1 with h
    exact h.symm
  rw [← hout, ← hwu]
  exact hw2

/-- Reading back the property just written. -/
theorem getProp_setProp_same (props : List (String × JVal)) (k : String)
    (v : JVal) : getProp (setProp props k v) k = some v := by
  induction props with
  | nil => simp [setProp, getProp]
  | cons kv tl ih =>
    obtain ⟨k1, w⟩ := kv
    rw [show setProp ((k1, w) :: tl) k v =
      (if k1 == k then (k, v) :: tl else (k1, w) :: setProp tl k v) from rfl]
    split
    · rw [show getProp ((k, v) :: tl) k =
        (if k == k then some v else getProp tl k) from rfl]
      simp
    · rename_i hne
      rw [show getProp ((k1, w) :: setProp tl k v) k =
        (if k1 == k then some w else getProp (setProp tl k v) k) from rfl]
      rw [if_neg hne]
      exact ih

/-- Writing one property leaves the others unchanged. -/
theorem getProp_setProp_ne (props : List (String × JVal)) {k k' : String}
    (v : JVal) (h : k' ≠ k) :
    getProp (setProp props k v) k' = getProp props k' := by
  induction props with
  | nil =>
    rw [show setProp [] k v = [(k, v)] from rfl]
    rw [show getProp [(k, v)] k' =
      (if k == k' then some v else getProp [] k') from rfl]
    rw [if_neg (by simp; exact fun hh => h hh.symm)]
  | cons kv tl ih =>
    obtain ⟨k1, w⟩ := kv
    rw [show setProp ((k1, w) :: tl) k v =
      (if k1 == k then (k, v) :: tl else (k1, w) :: setProp tl k v) from rfl]
    split
    · rename_i hbeq
      have hk1 : k1 = k := by simpa using hbeq
      subst hk1
      rw [show getProp ((k1, v) :: tl) k' =
        (if k1 == k' then some v else getProp tl k') from rfl]
      rw [show getProp ((k1, w) :: tl) k' =
        (if k1 == k' then some w else getProp tl k') from rfl]
      rw [if_neg (by simp; exact fun hh => h (hh.symm)),
        if_neg (by simp; exact fun hh => h (hh.symm))]
    · rw [show getProp ((k1, w) :: setProp tl k v) k' =
        (if k1 == k' then some w else getProp (setProp tl k v) k') from rfl]
      rw [show getProp ((k1, w) :: tl) k' =
        (if k1 == k' then some w else getProp tl k') from rfl]
      split
      · rfl
      · exact ih

/-- Walking a node one step. -/
theorem propAt_node_cons (props : List (String × JVal)) (k : String)
    (q : List String) :
    propAt (.node props) (k :: q) =
      (match getProp props k with
        | none => none
        | some c => propAt c q) := rfl

/-- Reading the `_errors` messages one step down. -/
theorem errorsAt_node_cons (props : List (String × JVal)) (k : String)
    (q : List String) :
    errorsAt (.node props) (k :: q) =
      (match getProp props k with
        | none => []
        | some c => errorsAt c q) := by
  cases hg : getProp props k with
  | none => simp [errorsAt, propAt, hg]
  | some c => simp [errorsAt, propAt, hg]

/-- The empty node records no messages anywhere. -/
theorem errorsAt_empty_node (q : List String) :
    errorsAt (.node []) q = [] := by
  cases q with
  | nil => simp [errorsAt, propAt, getProp]
  | cons k q2 => simp [errorsAt, propAt, getProp]

/-- The empty node has no descendants. -/
theorem propAt_empty_node (q : List String) (h : q ≠ []) :
    propAt (.node []) q = none := by
  cases q with
  | nil => exact absurd rfl h
  | cons k q2 => simp [propAt, getProp]

/-- The empty node is well formed. -/
theorem WFat_empty : WFat (.node []) := by
  constructor
  · intro q c _ hq
    cases q with
    | nil => exact ⟨[], by cases hq; rfl⟩
    | cons k q2 => rw [propAt_empty_node _ (by simp)] at hq; cases hq
  · intro q _
    left
    exact propAt_empty_node _ (by simp)

/-- Well-formedness restricts to any child reached by a non-`"_errors"`
key. -/
theorem WFat_child {props : List (String × JVal)} {k : String} {c : JVal}
    (hwf : WFat (.node props)) (hg : getProp props k = some c)
    (hk : k ≠ "_errors") : WFat c := by
  constructor
  · intro q c2 hq hpq
    refine hwf.1 (k :: q) c2 ?_ ?_
    · simp only [List.mem_cons]
      push_neg
      exact ⟨fun hh => hk hh.symm, hq⟩
    · rw [propAt_node_cons, hg]
      exact hpq
  · intro q hq
    have := hwf.2 (k :: q) (by
      simp only [List.mem_cons]
      push_neg
      exact ⟨fun hh => hk hh.symm, hq⟩)
    rw [show (k :: q) ++ ["_errors"] = k :: (q ++ ["_errors"]) from rfl,
      propAt_node_cons, hg] at this
    exact this

/-- The root's `_errors` messages. -/
theorem errorsAt_node_nil (props : List (String × JVal)) :
    errorsAt (.node props) [] =
      (match getProp props "_errors" with
        | some (.slist xs) => xs
        | _ => []) := rfl

/-- Walking into the freshly written property. -/
theorem propAt_setProp_same (props : List (String × JVal)) (k : String)
    (c : JVal) (q : List String) :
    propAt (.node (setProp props k c)) (k :: q) = propAt c q := by
  rw [propAt_node_cons, getProp_setProp_same]

/-- Walking past the freshly written property. -/
theorem propAt_setProp_ne (props : List (String × JVal)) {k k' : String}
    (c : JVal) (q : List String) (h : k' ≠ k) :
    propAt (.node (setProp props k c)) (k' :: q)
      = propAt (.node props) (k' :: q) := by
  rw [propAt_node_cons, propAt_node_cons, getProp_setProp_ne props c h]

/-- Reading messages through the freshly written property. -/
theorem errorsAt_setProp_same (props : List (String × JVal)) (k : String)
    (c : JVal) (q : List String) :
    errorsAt (.node (setProp props k c)) (k :: q) = errorsAt c q := by
  rw [errorsAt_node_cons, getProp_setProp_same]

/-- Reading messages past the freshly written property. -/
theorem errorsAt_setProp_ne (props : List (String × JVal)) {k k' : String}
    (c : JVal) (q : List String) (h : k' ≠ k) :
    errorsAt (.node (setProp props k c)) (k' :: q)
      = errorsAt (.node props) (k' :: q) := by
  rw [errorsAt_node_cons, errorsAt_node_cons, getProp_setProp_ne props c h]

/-- Writing a non-`"_errors"` property leaves the root messages alone. -/
theorem errorsAt_setProp_nil (props : List (String × JVal)) {k : String}
    (c : JVal) (h : k ≠ "_errors") :
    errorsAt (.node (setProp props k c)) [] = errorsAt (.node props) [] := by
  rw [errorsAt_node_nil, errorsAt_node_nil,
    getProp_setProp_ne props c (Ne.symm h)]

/-- Overwriting a non-`"_errors"` property with a well-formed subtree keeps
the graph well formed. -/
theorem WFat_setProp {props : List (String × JVal)} {k : String} {c : JVal}
    (hwf : WFat (.node props)) (hk : k ≠ "_errors") (hc : WFat c) :
    WFat (.node (setProp props k c)) := by
  constructor
  · intro q c2 hq hpq
    cases q with
    | nil => exact ⟨_, by cases hpq; rfl⟩
    | cons k' q2 =>
      have hq2 : "_errors" ∉ q2 := fun hh => hq (by simp [hh])
      by_cases hkk : k' = k
      · subst hkk
        rw [propAt_setProp_same] at hpq
        exact hc.1 q2 c2 hq2 hpq
      · rw [propAt_setProp_ne props c q2 hkk] at hpq
        exact hwf.1 (k' :: q2) c2 hq hpq
  · intro q hq
    cases q with
    | nil =>
      have h0 := hwf.2 [] (by simp)
      simp only [List.nil_append] at h0 ⊢
      rwa [propAt_setProp_ne props c [] (Ne.symm hk)]
    | cons k' q2 =>
      have hq2 : "_errors" ∉ q2 := fun hh => hq (by simp [hh])
      rw [show (k' :: q2) ++ ["_errors"] = k' :: (q2 ++ ["_errors"]) from rfl]
      by_cases hkk : k' = k
      · subst hkk
        rw [propAt_setProp_same]
        exact hc.2 q2 hq2
      · rw [propAt_setProp_ne props c _ hkk]
        have := hwf.2 (k' :: q2) hq
        rwa [show (k' :: q2) ++ ["_errors"] = k' :: (q2 ++ ["_errors"])
          from rfl] at this

/-- The freshly created terminal node `{_errors: [msg]}` is well formed. -/
theorem WFat_errNode (msg : String) :
    WFat (.node [("_errors", .slist [msg])]) := by
  constructor
  · intro q c hq hpq
    cases q with
    | nil => exact ⟨_, by cases hpq; rfl⟩
    | cons k3 q3 =>
      have hk3 : k3 ≠ "_errors" := fun hh => hq (by simp [hh])
      rw [propAt_node_cons,
        show getProp [("_errors", JVal.slist [msg])] k3 =
          (if "_errors" == k3 then some (JVal.slist [msg])
           else getProp [] k3) from rfl,
        if_neg (by simp; exact fun hh => hk3 hh.symm)] at hpq
      exact Option.noConfusion hpq
  · intro q hq
    cases q with
    | nil =>
      right
      exact ⟨[msg], by simp, by simp [propAt, getProp]⟩
    | cons k3 q3 =>
      left
      have hk3 : k3 ≠ "_errors" := fun hh => hq (by simp [hh])
      rw [show (k3 :: q3) ++ ["_errors"] = k3 :: (q3 ++ ["_errors"]) from rfl,
        propAt_node_cons,
        show getProp [("_errors", JVal.slist [msg])] k3 =
          (if "_errors" == k3 then some (JVal.slist [msg])
           else getProp [] k3) from rfl,
        if_neg (by simp; exact fun hh => hk3 hh.symm)]
      rfl

/-- Appending a message to an existing `_errors` array keeps the node well
formed. -/
theorem WFat_set_errors {cprops : List (String × JVal)} (xs : List String)
    (msg : String) (hwf : WFat (.node cprops)) :
    WFat (.node (setProp cprops "_errors" (.slist (xs ++ [msg])))) := by
  constructor
  · intro q c2 hq hpq
    cases q with
    | nil => exact ⟨_, by cases hpq; rfl⟩
    | cons k3 q3 =>
      have hk3 : k3 ≠ "_errors" := fun hh => hq (by simp [hh])
      rw [propAt_setProp_ne cprops _ q3 hk3] at hpq
      exact hwf.1 (k3 :: q3) c2 hq hpq
  · intro q hq
    cases q with
    | nil =>
      right
      refine ⟨xs ++ [msg], by simp, ?_⟩
      simp only [List.nil_append]
      rw [propAt_node_cons, getProp_setProp_same]
      rfl
    | cons k3 q3 =>
      have hk3 : k3 ≠ "_errors" := fun hh => hq (by simp [hh])
      rw [show (k3 :: q3) ++ ["_errors"] = k3 :: (q3 ++ ["_errors"]) from rfl,
        propAt_setProp_ne cprops _ _ hk3]
      have := hwf.2 (k3 :: q3) hq
      rwa [show (k3 :: q3) ++ ["_errors"] = k3 :: (q3 ++ ["_errors"])
        from rfl] at this

/-- Walking through an absent property. -/
theorem propAt_cons_none {props : List (String × JVal)} {k : String}
    (q : List String) (h : getProp props k = none) :
    propAt (.node props) (k :: q) = none := by
  rw [propAt_node_cons, h]

/-- Walking through a present property. -/
theorem propAt_cons_some {props : List (String × JVal)} {k : String}
    {c : JVal} (q : List String) (h : getProp props k = some c) :
    propAt (.node props) (k :: q) = propAt c q := by
  rw [propAt_node_cons, h]

/-- No messages through an absent property. -/
theorem errorsAt_cons_none {props : List (String × JVal)} {k : String}
    (q : List String) (h : getProp props k = none) :
    errorsAt (.node props) (k :: q) = [] := by
  rw [errorsAt_node_cons, h]

/-- Messages through a present property. -/
theorem errorsAt_cons_some {props : List (String × JVal)} {k : String}
    {c : JVal} (q : List String) (h : getProp props k = some c) :
    errorsAt (.node props) (k :: q) = errorsAt c q := by
  rw [errorsAt_node_cons, h]

/-- Full specification of one `insertGo` walk: under well-formedness and the
no-crash precondition (the terminal node is absent, or already carries
messages), the walk succeeds, preserves well-formedness, appends `msg` to the
messages at exactly `segs`, leaves every other node's messages alone, and
creates exactly the nodes along `segs`. -/
theorem insertGo_spec : ∀ (segs : List String) (t : JVal) (msg : String),
    segs ≠ [] → "_errors" ∉ segs → WFat t →
    (propAt t segs = none ∨ errorsAt t segs ≠ []) →
    ∃ t', insertGo t segs msg = .ok t' ∧ WFat t' ∧
      (∀ q, "_errors" ∉ q →
        errorsAt t' q = (if q = segs then errorsAt t q ++ [msg]
          else errorsAt t q)) ∧
      (∀ q, "_errors" ∉ q → q ≠ [] →
        ((propAt t' q).isSome ↔ (propAt t q).isSome ∨ q <+: segs)) := by
  intro segs
  induction segs with
  | nil => intro t msg h; exact absurd rfl h
  | cons k rest ih =>
    intro t msg _ hgood hwf hnc
    obtain ⟨props, rfl⟩ := hwf.1 [] t (by simp) rfl
    have hk : k ≠ "_errors" := fun hh => hgood (by simp [hh])
    have hrest : "_errors" ∉ rest := fun hh => hgood (by simp [hh])
    cases rest with
    | nil =>
      have hpk : propAt (.node props) [k] = getProp props k := by
        cases hg : getProp props k <;> simp [propAt, hg]
      cases hg : getProp props k with
      | none =>
        refine ⟨.node (setProp props k (.node [("_errors", .slist [msg])])),
          by simp [insertGo, hg], WFat_setProp hwf hk (WFat_errNode msg),
          ?_, ?_⟩
        · intro q hq
          cases q with
          | nil =>
            rw [if_neg (by simp)]
            exact errorsAt_setProp_nil props _ hk
          | cons k' q2 =>
            by_cases hkk : k' = k
            · subst hkk
              rw [errorsAt_setProp_same]
              cases q2 with
              | nil =>
                rw [if_pos rfl, errorsAt_cons_none [] hg]
                rfl
              | cons k3 q3 =>
                rw [if_neg (by simp)]
                have hk3 : k3 ≠ "_errors" := fun hh => hq (by simp [hh])
                have hg3 : getProp [("_errors", JVal.slist [msg])] k3
                    = none := by
                  rw [show getProp [("_errors", JVal.slist [msg])] k3 =
                    (if "_errors" == k3 then some (JVal.slist [msg])
                     else getProp [] k3) from rfl,
                    if_neg (by simp; exact fun hh => hk3 hh.symm)]
                  rfl
                rw [errorsAt_cons_none q3 hg3, errorsAt_cons_none (k3 :: q3) hg]
            · rw [errorsAt_setProp_ne props _ q2 hkk,
                if_neg (by intro hh; injection hh with h1 h2; exact hkk h1)]
        · intro q hq hqne
          cases q with
          | nil => exact absurd rfl hqne
          | cons k' q2 =>
            by_cases hkk : k' = k
            · subst hkk
              rw [propAt_setProp_same]
              cases q2 with
              | nil =>
                rw [propAt_cons_none [] hg]
                simp [propAt]
              | cons k3 q3 =>
                have hk3 : k3 ≠ "_errors" := fun hh => hq (by simp [hh])
                have hg3 : getProp [("_errors", JVal.slist [msg])] k3
                    = none := by
                  rw [show getProp [("_errors", JVal.slist [msg])] k3 =
                    (if "_errors" == k3 then some (JVal.slist [msg])
                     else getProp [] k3) from rfl,
                    if_neg (by simp; exact fun hh => hk3 hh.symm)]
                  rfl
                rw [propAt_cons_none q3 hg3, propAt_cons_none (k3 :: q3) hg]
                simp [List.cons_prefix_cons]
            · rw [propAt_setProp_ne props _ q2 hkk]
              simp [List.cons_prefix_cons, hkk]
      | some c =>
        obtain ⟨cprops, rfl⟩ := hwf.1 [k] c
          (by simp; exact fun hh => hk hh.symm) (by rw [propAt_cons_some [] hg]; rfl)
        have hcrash : ∃ xs, getProp cprops "_errors" = some (.slist xs) ∧
            xs ≠ [] := by
          rcases hnc with hn | hn
          · rw [propAt_cons_some [] hg] at hn
            exact Option.noConfusion hn
          · rw [errorsAt_cons_some [] hg, errorsAt_node_nil] at hn
            cases hge : getProp cprops "_errors" with
            | none => rw [hge] at hn; simp at hn
            | some c2 =>
              cases c2 with
              | node _ => rw [hge] at hn; simp at hn
              | slist xs => exact ⟨xs, rfl, by rw [hge] at hn; simpa using hn⟩
        obtain ⟨xs, hge, hxs⟩ := hcrash
        refine ⟨.node (setProp props k
            (.node (setProp cprops "_errors" (.slist (xs ++ [msg]))))),
          by simp [insertGo, hg, hge],
          WFat_setProp hwf hk (WFat_set_errors xs msg (WFat_child hwf hg hk)),
          ?_, ?_⟩
        · intro q hq
          cases q with
          | nil =>
            rw [if_neg (by simp)]
            exact errorsAt_setProp_nil props _ hk
          | cons k' q2 =>
            by_cases hkk : k' = k
            · subst hkk
              rw [errorsAt_setProp_same]
              cases q2 with
              | nil =>
                rw [if_pos rfl, errorsAt_node_nil, getProp_setProp_same,
                  errorsAt_cons_some [] hg, errorsAt_node_nil, hge]
              | cons k3 q3 =>
                rw [if_neg (by simp)]
                have hk3 : k3 ≠ "_errors" := fun hh => hq (by simp [hh])
                rw [errorsAt_setProp_ne cprops _ q3 hk3,
                  errorsAt_cons_some (k3 :: q3) hg]
            · rw [errorsAt_setProp_ne props _ q2 hkk,
                if_neg (by intro hh; injection hh with h1 h2; exact hkk h1)]
        · intro q hq hqne
          cases q with
          | nil => exact absurd rfl hqne
          | cons k' q2 =>
            by_cases hkk : k' = k
            · subst hkk
              rw [propAt_setProp_same]
              cases q2 with
              | nil =>
                rw [propAt_cons_some [] hg]
                simp [propAt]
              | cons k3 q3 =>
                have hk3 : k3 ≠ "_errors" := fun hh => hq (by simp [hh])
                rw [propAt_setProp_ne cprops _ q3 hk3,
                  propAt_cons_some (k3 :: q3) hg]
                simp [List.cons_prefix_cons]
            · rw [propAt_setProp_ne props _ q2 hkk]
              simp [List.cons_prefix_cons, hkk]
    | cons k2 rest2 =>
      have hstep : insertGo (.node props) (k :: k2 :: rest2) msg =
          (match getProp props k with
            | none =>
              match insertGo (.node []) (k2 :: rest2) msg with
              | .error u => .error u
              | .ok c => .ok (.node (setProp props k c))
            | some c =>
              match insertGo c (k2 :: rest2) msg with
              | .error u => .error u
              | .ok c2 => .ok (.node (setProp props k c2))) := rfl
      cases hg : getProp props k with
      | none =>
        obtain ⟨c', hins, hwf', herr', hprop'⟩ := ih (.node []) msg (by simp)
          hrest WFat_empty (Or.inl (propAt_empty_node _ (by simp)))
        refine ⟨.node (setProp props k c'), by rw [hstep, hg, hins],
          WFat_setProp hwf hk hwf', ?_, ?_⟩
        · intro q hq
          cases q with
          | nil =>
            rw [if_neg (by simp)]
            exact errorsAt_setProp_nil props _ hk
          | cons k' q2 =>
            by_cases hkk : k' = k
            · subst hkk
              rw [errorsAt_setProp_same,
                herr' q2 (fun hh => hq (by simp [hh])),
                errorsAt_empty_node, errorsAt_cons_none q2 hg]
              by_cases hq2 : q2 = k2 :: rest2
              · rw [if_pos hq2, if_pos (by rw [hq2])]
              · rw [if_neg hq2, if_neg (by
                  intro hh; injection hh with h1 h2; exact hq2 h2)]
            · rw [errorsAt_setProp_ne props _ q2 hkk,
                if_neg (by intro hh; injection hh with h1 h2; exact hkk h1)]
        · intro q hq hqne
          cases q with
          | nil => exact absurd rfl hqne
          | cons k' q2 =>
            by_cases hkk : k' = k
            · subst hkk
              rw [propAt_setProp_same, propAt_cons_none q2 hg]
              cases hq2e : q2 with
              | nil =>
                simp [propAt, List.cons_prefix_cons]
              | cons k3 q3 =>
                rw [← hq2e,
                  hprop' q2 (fun hh => hq (by simp [hh]))
                    (by rw [hq2e]; simp),
                  propAt_empty_node q2 (by rw [hq2e]; simp)]
                simp [List.cons_prefix_cons]
            · rw [propAt_setProp_ne props _ q2 hkk]
              simp [List.cons_prefix_cons, hkk]
      | some c =>
        obtain ⟨cprops, rfl⟩ := hwf.1 [k] c
          (by simp; exact fun hh => hk hh.symm)
          (by rw [propAt_cons_some [] hg]; rfl)
        have hnc' : propAt (.node cprops) (k2 :: rest2) = none ∨
            errorsAt (.node cprops) (k2 :: rest2) ≠ [] := by
          rcases hnc with hn | hn
          · left; rwa [propAt_cons_some (k2 :: rest2) hg] at hn
          · right; rwa [errorsAt_cons_some (k2 :: rest2) hg] at hn
        obtain ⟨c', hins, hwf', herr', hprop'⟩ := ih (.node cprops) msg
          (by simp) hrest (WFat_child hwf hg hk) hnc'
        have hstep2 : insertGo (.node props) (k :: k2 :: rest2) msg =
            (match insertGo (.node cprops) (k2 :: rest2) msg with
              | .error u => .error u
              | .ok c2 => .ok (.node (setProp props k c2))) := by
          rw [hstep, hg]
        refine ⟨.node (setProp props k c'), by rw [hstep2, hins],
          WFat_setProp hwf hk hwf', ?_, ?_⟩
        · intro q hq
          cases q with
          | nil =>
            rw [if_neg (by simp)]
            exact errorsAt_setProp_nil props _ hk
          | cons k' q2 =>
            by_cases hkk : k' = k
            · subst hkk
              rw [errorsAt_setProp_same,
                herr' q2 (fun hh => hq (by simp [hh])),
                errorsAt_cons_some q2 hg]
              by_cases hq2 : q2 = k2 :: rest2
              · rw [if_pos hq2, if_pos (by rw [hq2])]
              · rw [if_neg hq2, if_neg (by
                  intro hh; injection hh with h1 h2; exact hq2 h2)]
            · rw [errorsAt_setProp_ne props _ q2 hkk,
                if_neg (by intro hh; injection hh with h1 h2; exact hkk h1)]
        · intro q hq hqne
          cases q with
          | nil => exact absurd rfl hqne
          | cons k' q2 =>
            by_cases hkk : k' = k
            · subst hkk
              rw [propAt_setProp_same, propAt_cons_some q2 hg]
              cases hq2e : q2 with
              | nil =>
                simp [propAt]
              | cons k3 q3 =>
                rw [← hq2e,
                  hprop' q2 (fun hh => hq (by simp [hh]))
                    (by rw [hq2e]; simp)]
                simp [List.cons_prefix_cons]
            · rw [propAt_setProp_ne props _ q2 hkk]
              simp [List.cons_prefix_cons, hkk]

/-- A recorded issue at `q` keeps the message list at `q` nonempty. -/
theorem filter_msgs_ne {done : List Issue} {j : Issue} {q : List String}
    (hj : j ∈ done) (hq : kpath j = q) :
    (done.filter fun j2 => kpath j2 == q).map Issue.message ≠ [] := by
  have hmem : j ∈ done.filter fun j2 => kpath j2 == q := by
    simp [List.mem_filter, hj, hq]
  intro hcontra
  rw [List.map_eq_nil_iff] at hcontra
  rw [hcontra] at hmem
  cases hmem

/-- Processing one issue of the outer loop: under the invariant relating the
tree to the already-processed issues — and provided no earlier issue's path
strictly extends this issue's nonempty path — the issue is recorded at its
own key path and nothing else changes. -/
theorem insertIssue_step (t : JVal) (done : List Issue) (i : Issue)
    (hwf : WFat t)
    (herr : ∀ q, "_errors" ∉ q →
      errorsAt t q = (done.filter fun j => kpath j == q).map Issue.message)
    (hprop : ∀ q, "_errors" ∉ q → q ≠ [] →
      ((propAt t q).isSome ↔ ∃ j ∈ done, q <+: kpath j))
    (hgood : "_errors" ∉ kpath i)
    (hord : ∀ j ∈ done, kpath i = [] ∨ kpath i = kpath j ∨
      ¬ kpath i <+: kpath j) :
    ∃ t', insertIssue t i = .ok t' ∧ WFat t' ∧
      (∀ q, "_errors" ∉ q → errorsAt t' q =
        ((done ++ [i]).filter fun j => kpath j == q).map Issue.message) ∧
      (∀ q, "_errors" ∉ q → q ≠ [] →
        ((propAt t' q).isSome ↔ ∃ j ∈ done ++ [i], q <+: kpath j)) := by
  by_cases hpe : i.path = []
  · -- empty path: append to the root _errors list
    have hkp : kpath i = [] := by simp [kpath, hpe]
    obtain ⟨props, rfl⟩ := hwf.1 [] t (by simp) rfl
    have hslot : propAt (JVal.node props) ["_errors"]
        = getProp props "_errors" := by
      cases hge : getProp props "_errors" <;> simp [propAt, hge]
    have hroot : errorsAt (JVal.node props) []
        = (done.filter fun j => kpath j == ([] : List String)).map
            Issue.message := herr [] (by simp)
    rcases hwf.2 [] (by simp) with hnone | ⟨xs, hxs, hsome⟩
    · rw [List.nil_append, hslot] at hnone
      refine ⟨.node (setProp props "_errors" (.slist [i.message])),
        by simp [insertIssue, hpe, hnone], ?_, ?_, ?_⟩
      · exact WFat_set_errors [] i.message hwf
      · intro q hq
        rw [List.filter_append, List.map_append]
        cases q with
        | nil =>
          rw [errorsAt_node_nil, getProp_setProp_same]
          rw [← hroot, errorsAt_node_nil, hnone]
          simp [List.filter_singleton, hkp]
        | cons k q2 =>
          have hk : k ≠ "_errors" := fun hh => hq (by simp [hh])
          rw [errorsAt_setProp_ne props _ q2 hk, herr (k :: q2) hq]
          have : (kpath i == k :: q2) = false := by
            simp [hkp]
          simp [List.filter_singleton, this]
      · intro q hq hqne
        cases q with
        | nil => exact absurd rfl hqne
        | cons k q2 =>
          have hk : k ≠ "_errors" := fun hh => hq (by simp [hh])
          rw [propAt_setProp_ne props _ q2 hk, hprop (k :: q2) hq hqne]
          constructor
          · rintro ⟨j, hj, hp⟩
            exact ⟨j, by simp [hj], hp⟩
          · rintro ⟨j, hj, hp⟩
            rcases List.mem_append.mp hj with hj2 | hj2
            · exact ⟨j, hj2, hp⟩
            · exfalso
              have : j = i := by simpa using hj2
              subst this
              rw [hkp] at hp
              exact hqne (List.prefix_nil.mp hp)
    · rw [List.nil_append, hslot] at hsome
      refine ⟨.node (setProp props "_errors" (.slist (xs ++ [i.message]))),
        by simp [insertIssue, hpe, hsome], ?_, ?_, ?_⟩
      · exact WFat_set_errors xs i.message hwf
      · intro q hq
        rw [List.filter_append, List.map_append]
        cases q with
        | nil =>
          rw [errorsAt_node_nil, getProp_setProp_same]
          rw [← hroot, errorsAt_node_nil, hsome]
          simp [List.filter_singleton, hkp]
        | cons k q2 =>
          have hk : k ≠ "_errors" := fun hh => hq (by simp [hh])
          rw [errorsAt_setProp_ne props _ q2 hk, herr (k :: q2) hq]
          have : (kpath i == k :: q2) = false := by
            simp [hkp]
          simp [List.filter_singleton, this]
      · intro q hq hqne
        cases q with
        | nil => exact absurd rfl hqne
        | cons k q2 =>
          have hk : k ≠ "_errors" := fun hh => hq (by simp [hh])
          rw [propAt_setProp_ne props _ q2 hk, hprop (k :: q2) hq hqne]
          constructor
          · rintro ⟨j, hj, hp⟩
            exact ⟨j, by simp [hj], hp⟩
          · rintro ⟨j, hj, hp⟩
            rcases List.mem_append.mp hj with hj2 | hj2
            · exact ⟨j, hj2, hp⟩
            · exfalso
              have : j = i := by simpa using hj2
              subst this
              rw [hkp] at hp
              exact hqne (List.prefix_nil.mp hp)
  · -- nonempty path: insertGo walk
    have hkp : kpath i ≠ [] := by
      simp only [kpath, ne_eq, List.map_eq_nil_iff]
      exact hpe
    have hie : i.path.isEmpty = false := by
      cases hl : i.path with
      | nil => exact absurd hl hpe
      | cons a tl => rfl
    have hii : insertIssue t i = insertGo t (kpath i) i.message := by
      simp [insertIssue, hie]
    have hnc : propAt t (kpath i) = none ∨ errorsAt t (kpath i) ≠ [] := by
      by_cases hps : (propAt t (kpath i)).isSome = true
      · right
        obtain ⟨j, hj, hpre⟩ := (hprop (kpath i) hgood hkp).mp hps
        by_cases hex : ∃ j2 ∈ done, kpath j2 = kpath i
        · obtain ⟨j2, hj2, hkj2⟩ := hex
          rw [herr (kpath i) hgood]
          exact filter_msgs_ne hj2 hkj2
        · exfalso
          rcases hord j hj with hc | hc | hc
          · exact hkp hc
          · exact hex ⟨j, hj, hc.symm⟩
          · exact hc hpre
      · left
        exact Option.not_isSome_iff_eq_none.mp (by simpa using hps)
    obtain ⟨t', hins, hwf', herr', hprop'⟩ :=
      insertGo_spec (kpath i) t i.message hkp hgood hwf hnc
    refine ⟨t', by rw [hii]; exact hins, hwf', ?_, ?_⟩
    · intro q hq
      rw [herr' q hq, List.filter_append, List.map_append, herr q hq]
      by_cases hqi : q = kpath i
      · rw [if_pos hqi]
        have : (kpath i == q) = true := by simp [hqi]
        simp [List.filter_singleton, this]
      · rw [if_neg hqi]
        have : (kpath i == q) = false := by
          simp
          exact fun hh => hqi hh.symm
        simp [List.filter_singleton, this]
    · intro q hq hqne
      rw [hprop' q hq hqne, hprop q hq hqne]
      constructor
      · rintro (⟨j, hj, hp⟩ | hp)
        · exact ⟨j, by simp [hj], hp⟩
        · exact ⟨i, by simp, hp⟩
      · rintro ⟨j, hj, hp⟩
        rcases List.mem_append.mp hj with hj2 | hj2
        · exact Or.inl ⟨j, hj2, hp⟩
        · have : j = i := by simpa using hj2
          subst this
          exact Or.inr hp

/-- Extracting the ordering condition between the processed prefix and the
next issue from the Boolean pairwise check. -/
theorem noLater_head_rel : ∀ (done : List Issue) (i : Issue)
    (rest : List Issue),
    noLaterProperPrefix (done ++ i :: rest) = true →
    ∀ j ∈ done, kpath i = [] ∨ kpath i = kpath j ∨
      ¬ kpath i <+: kpath j := by
  intro done
  induction done with
  | nil => intro i rest _ j hj; cases hj
  | cons j0 dtl ih =>
    intro i rest h j hj
    have hsplit : ((dtl ++ i :: rest).all fun j2 =>
        (kpath j2).isEmpty || kpath j2 == kpath j0 ||
        !(kpath j2).isPrefixOf (kpath j0)) = true ∧
        noLaterProperPrefix (dtl ++ i :: rest) = true := by
      simpa [noLaterProperPrefix, Bool.and_eq_true] using h
    rcases List.mem_cons.mp hj with rfl | hj2
    · have hall := List.all_eq_true.mp hsplit.1 i (by simp)
      simp only [Bool.or_eq_true, beq_iff_eq, Bool.not_eq_true'] at hall
      rcases hall with (he | heq) | hp
      · exact Or.inl (by simpa [List.isEmpty_iff] using he)
      · exact Or.inr (Or.inl heq)
      · refine Or.inr (Or.inr fun hc => ?_)
        rw [← List.isPrefixOf_iff_prefix] at hc
        rw [hp] at hc
        cases hc
    · exact ih i rest hsplit.2 j hj2

/-- No issue path contains `"_errors"` when the Boolean check passes. -/
theorem pathsAvoid_mem {l : List Issue}
    (h : pathsAvoidErrorsKey l = true) {i : Issue} (hi : i ∈ l) :
    "_errors" ∉ kpath i := by
  unfold pathsAvoidErrorsKey at h
  have := List.all_eq_true.mp h i hi
  simpa using this

/-- Folding the remaining issues into a tree satisfying the invariant:
`format`'s loop succeeds and the final tree records, at every key path, the
messages of exactly the issues with that key path, in order. -/
theorem formatFold : ∀ (todo : List Issue) (t : JVal) (done : List Issue),
    WFat t →
    (∀ q, "_errors" ∉ q →
      errorsAt t q = (done.filter fun j => kpath j == q).map Issue.message) →
    (∀ q, "_errors" ∉ q → q ≠ [] →
      ((propAt t q).isSome ↔ ∃ j ∈ done, q <+: kpath j)) →
    pathsAvoidErrorsKey (done ++ todo) = true →
    noLaterProperPrefix (done ++ todo) = true →
    ∃ t', List.foldlM insertIssue t todo = .ok t' ∧
      ∀ q, "_errors" ∉ q → errorsAt t' q =
        ((done ++ todo).filter fun j => kpath j == q).map Issue.message := by
  intro todo
  induction todo with
  | nil =>
    intro t done hwf herr _ _ _
    exact ⟨t, rfl, by simpa using herr⟩
  | cons i todo' ih =>
    intro t done hwf herr hprop hpa hnl
    have hgood : "_errors" ∉ kpath i := pathsAvoid_mem hpa (by simp)
    have hord := noLater_head_rel done i todo' hnl
    obtain ⟨t1, hstep, hwf1, herr1, hprop1⟩ :=
      insertIssue_step t done i hwf herr hprop hgood hord
    have hassoc : (done ++ [i]) ++ todo' = done ++ i :: todo' := by simp
    obtain ⟨t', hfold, herr'⟩ := ih t1 (done ++ [i]) hwf1 herr1 hprop1
      (by rw [hassoc]; exact hpa) (by rw [hassoc]; exact hnl)
    refine ⟨t', ?_, ?_⟩
    · rw [List.foldlM_cons, hstep]
      exact hfold
    · intro q hq
      have := herr' q hq
      rwa [hassoc] at this

/-- C6 counterexample: on the two-issue sequence with paths `["a","b"]` then
`["a"]`, the second issue's terminal node `a` already exists — created as an
intermediate `{}` node by the first issue — without an `_errors` list, so
`format` throws a TypeError (`push` on `undefined`) instead of creating the
list and appending the message as the claim states. -/
theorem claim_C6_counterexample :
    formatIssues
      [{ path := [.str "a", .str "b"], message := "m1", code := "custom" },
       { path := [.str "a"], message := "m2", code := "custom" }]
      = .error () := rfl

/-- C6 amended: provided no issue's path contains the reserved key
`"_errors"` and no issue's nonempty path is a proper prefix of an *earlier*
issue's path, `format` builds the nested tree by walking/creating nodes along
each issue's path, and the `_errors` list at every key path holds exactly the
messages of the issues with that path, in sequence order (empty-path issues
land in the root's `_errors` list). -/
theorem claim_C6_amended (issues : List Issue)
    (h1 : pathsAvoidErrorsKey issues = true)
    (h2 : noLaterProperPrefix issues = true) :
    ∃ t, formatIssues issues = .ok t ∧
      ∀ p, "_errors" ∉ p →
        errorsAt t p = (issues.filter fun j => kpath j == p).map
          Issue.message := by
  obtain ⟨t, hfold, herr⟩ := formatFold issues (.node []) []
    WFat_empty
    (fun q _ => by simp [errorsAt_empty_node])
    (fun q _ hne => by simp [propAt_empty_node q hne])
    (by simpa using h1) (by simpa using h2)
  exact ⟨t, hfold, fun p hp => by simpa using herr p hp⟩

/-- C6 amended witness: the two-invalid-field object example — parsing
`{a: "J", b: "x"}` against `object({a: string().min(2), b: number()})` and
formatting its issues yields a tree with both `a._errors` and `b._errors`
nonempty. -/
theorem claim_C6_amended_witness :
    pathsAvoidErrorsKey c6Issues = true ∧
    noLaterProperPrefix c6Issues = true ∧
    (formatIssues c6Issues).isOk = true ∧
    ((formatIssues c6Issues).toOption.map fun t =>
      ((errorsAt t ["a"]).isEmpty, (errorsAt t ["b"]).isEmpty))
      = some (false, false) := by
  obtain ⟨t, ht, herr⟩ := claim_C6_amended c6Issues rfl rfl
  refine ⟨rfl, rfl, by rw [ht]; rfl, ?_⟩
  rw [ht]
  show some ((errorsAt t ["a"]).isEmpty, (errorsAt t ["b"]).isEmpty)
    = some (false, false)
  rw [herr ["a"] (by simp), herr ["b"] (by simp)]
  rfl

end Qera
